import Mathlib

/-!
Verification of the glass type-tree resolver
(`crates/lib/glass-parser/src/type_tree/mod.rs`, the compiled module:
`lib.rs` declares `pub mod type_tree;` and `type_tree/mod.rs` declares no
submodules, so the parallel split files `core.rs`/`imports.rs`/… are not
part of the crate).

The AST (`ast/mod.rs`) is embedded shallowly.  `Span` values carry only
source locations for diagnostics and never influence the resolver's
control flow or data, so they are dropped from the embedding; for the same
reason `TypeWithSpan` collapses to its `type_value` component.

Rust `HashMap`s are embedded as association lists with insert-replace
semantics, and `HashSet`s as duplicate-free lists.  Lookup and membership
are order-insensitive, matching the hash containers.  The one observable
hash-container behaviour that is *not* deterministic in Rust is iteration
order (`nodes.keys()`, `import_graph.keys()`, and iteration over a
`HashSet` of dependencies).  Every function that iterates over such a
container therefore takes an extra parameter `σ : List String → List String`
modelling the iteration order; theorems quantify over all `σ` that permute
their input, so they cover every order the Rust runtime may choose.
-/

namespace Glass

/-! ### AST (`ast/mod.rs`) -/

/-- `PrimitiveType` from `ast/mod.rs`. -/
inductive PrimitiveType where
  | String
  | U8 | U16 | U32 | U64 | U128
  | I8 | I16 | I32 | I64 | I128
  | F32 | F64
  | Bool
deriving DecidableEq

/-- `PackagePath`: identifier segments; `Display` joins them with `"."`. -/
structure PackagePath where
  segments : List String
deriving DecidableEq

/-- The `Display` impl of `PackagePath`: `segments.join(".")`. -/
def PackagePath.toStr (p : PackagePath) : String :=
  String.intercalate "." p.segments

/-- `PackageDecl` from `ast/mod.rs`. -/
structure PackageDecl where
  path : PackagePath
deriving DecidableEq

/-- `ImportStmt` from `ast/mod.rs`. -/
structure ImportStmt where
  path : String
deriving DecidableEq

/-- `SchemaRef` from `ast/mod.rs`: an optionally package-qualified name. -/
structure SchemaRef where
  package : Option PackagePath
  name : String
deriving DecidableEq

/-- `Type` from `ast/mod.rs` (named `GType` because `Type` is reserved in
Lean).  `TypeWithSpan` is collapsed into it, spans being diagnostics only. -/
inductive GType where
  | Option (inner : GType)
  | Vec (inner : GType)
  | Primitive (p : PrimitiveType)
  | SchemaRef (r : SchemaRef)
deriving DecidableEq

/-- `SchemaField` from `ast/mod.rs`. -/
structure SchemaField where
  name : String
  field_type : GType
deriving DecidableEq

/-- `SchemaDef` from `ast/mod.rs`. -/
structure SchemaDef where
  name : String
  fields : List SchemaField
deriving DecidableEq

/-- `EnumDef` from `ast/mod.rs`. -/
structure EnumDef where
  name : String
  variants : List String
deriving DecidableEq

/-- `ServiceDef` from `ast/mod.rs`.  The type tree matches
`Definition::Service(_)` and never inspects the payload, so methods are
omitted from the embedding. -/
structure ServiceDef where
  name : String
deriving DecidableEq

/-- `Definition` from `ast/mod.rs`. -/
inductive Definition where
  | Service (s : ServiceDef)
  | Schema (s : SchemaDef)
  | Enum (e : EnumDef)
deriving DecidableEq

/-- `Program` from `ast/mod.rs`. -/
structure Program where
  package : Option PackageDecl
  imports : List ImportStmt
  definitions : List Definition
deriving DecidableEq

/-! ### Association lists standing for `HashMap<String, α>` and
duplicate-free lists standing for `HashSet<String>` -/

/-- `HashMap::insert`: replace the binding of `k` if present, else add it. -/
def alInsert {α : Type} : List (String × α) → String → α → List (String × α)
  | [], k, v => [(k, v)]
  | (k', v') :: rest, k, v =>
      if k' = k then (k, v) :: rest else (k', v') :: alInsert rest k v

/-- `HashMap::get`. -/
def alLookup {α : Type} : List (String × α) → String → Option α
  | [], _ => none
  | (k', v) :: rest, k => if k' = k then some v else alLookup rest k

/-- `HashMap::keys` (as a list; iteration order is handled by `σ`). -/
def alKeys {α : Type} (m : List (String × α)) : List String :=
  m.map Prod.fst

/-- Update the value at `k` in place if present (`HashMap::get_mut`). -/
def alModify {α : Type} : List (String × α) → String → (α → α) → List (String × α)
  | [], _, _ => []
  | (k', v) :: rest, k, f =>
      if k' = k then (k, f v) :: rest else (k', v) :: alModify rest k f

/-- `HashSet::insert` on a duplicate-free list. -/
def slInsert (s : List String) (x : String) : List String :=
  if x ∈ s then s else s ++ [x]

/-! ### Type tree data model (`type_tree/mod.rs`) -/

/-- `TypeDefinition` from `type_tree/mod.rs`. -/
inductive TypeDefinition where
  | Schema (s : SchemaDef)
  | Enum (e : EnumDef)
deriving DecidableEq

/-- `TypeNode` from `type_tree/mod.rs` (the `span` field dropped with all
spans). -/
structure TypeNode where
  qualified_name : String
  definition : TypeDefinition
  dependencies : List String
deriving DecidableEq

/-- `ProgramInfo` from `type_tree/mod.rs`. -/
structure ProgramInfo where
  program : Program
  file_path : Option String
  package_name : Option String
deriving DecidableEq

/-- `TypeTree` from `type_tree/mod.rs`. -/
structure TypeTree where
  nodes : List (String × TypeNode)
  file_to_package : List (String × String)
  package_to_programs : List (String × List Nat)
  programs : List ProgramInfo
  import_graph : List (String × List String)
  file_to_types : List (String × List String)
deriving DecidableEq

/-- `TypeTree::new`. -/
def TypeTree.new : TypeTree :=
  ⟨[], [], [], [], [], []⟩

/-- `TypeTreeError` from `type_tree/mod.rs`. -/
inductive TypeTreeError where
  | CircularDependency (path : String)
  | TypeNotFound (name : String)
  | InvalidSchemaReference (reference : String)
  | ImportFileNotFound (file_path : String)
  | TypeNotAccessible (type_name : String) (from_file : String)
  | CircularImport (cycle : List String)
  | UnresolvableImport (import_path : String) (from_file : String)
deriving DecidableEq

/-- `ImportValidationError` from `type_tree/mod.rs`. -/
inductive ImportValidationError where
  | FileNotFound (import_path : String) (from_file : String) (resolved_path : String)
  | CircularImport (cycle : List String)
deriving DecidableEq

/-! ### Small string helpers for `resolve_import_path` -/

/-- Rust `str::starts_with` on string literals. -/
def strStartsWith (s p : String) : Bool :=
  p.data.isPrefixOf s.data

/-- Drop the first `n` characters (used for `strip_prefix("/")`). -/
def strDrop (s : String) (n : Nat) : String :=
  ⟨s.data.drop n⟩

/-- Split a character list at every occurrence of `c` (the semantics of
`str::split` / `String.splitOn` restricted to a single-character
separator, written as a plain recursion so it evaluates in the kernel). -/
def splitOnChar (c : Char) : List Char → List (List Char)
  | [] => [[]]
  | x :: xs =>
      if x = c then [] :: splitOnChar c xs
      else
        match splitOnChar c xs with
        | [] => [[x]]
        | g :: gs => (x :: g) :: gs

/-- `Path::new(f).parent().map(to_string_lossy).unwrap_or_default()` for the
relative, separator-normalised path strings the resolver works with: the
last `/`-separated component is dropped and the rest re-joined with `/`.
A path without `/` has parent `""`, exactly as `Path::parent` yields
`Some("")` there. -/
def parentDirOf (f : String) : String :=
  String.intercalate "/"
    (((splitOnChar '/' f.data).map (fun g => String.mk g)).dropLast)

/-- `program.package.as_ref().map(|p| p.path.to_string()).unwrap_or_default()`. -/
def pkgNameOf (p : Program) : String :=
  (p.package.map (fun d => d.path.toStr)).getD ""

/-- The qualified-name computation repeated through `type_tree/mod.rs`:
`if package_name.is_empty() { name } else { format!("{}.{}", pkg, name) }`. -/
def qualify (pkg name : String) : String :=
  if pkg = "" then name else pkg ++ "." ++ name

/-! ### `resolve_import_path` -/

/-- `TypeTree::resolve_import_path` (`&self` is unused by the Rust body). -/
def resolve_import_path (importing_file import_path : String) : String :=
  if strStartsWith import_path "/" then
    strDrop import_path 1
  else if strStartsWith import_path "../" || strStartsWith import_path "./" then
    let parent_dir := parentDirOf importing_file
    if parent_dir = "" then import_path
    else parent_dir ++ "/" ++ import_path
  else
    import_path

/-! ### Construction: registration, collection, dependency resolution -/

/-- `TypeTree::add_program_with_path`.  The Rust function returns
`Result<(), TypeTreeError>` but every control path returns `Ok(())`, so it
is embedded as a pure update of the tree. -/
def add_program_with_path (tt : TypeTree) (program : Program) (file_path : String) :
    TypeTree :=
  let package_name := pkgNameOf program
  let program_index := tt.programs.length
  { tt with
    programs := tt.programs ++ [ProgramInfo.mk program (some file_path) (some package_name)]
    file_to_package := alInsert tt.file_to_package file_path package_name
    package_to_programs :=
      alInsert tt.package_to_programs package_name
        ((alLookup tt.package_to_programs package_name).getD [] ++ [program_index])
    import_graph :=
      alInsert tt.import_graph file_path
        (program.imports.map (fun (imp : ImportStmt) => resolve_import_path file_path imp.path)) }

/-- The registration loop body of `from_programs_with_paths` (store the
program, map its file to its package, resolve its imports, record which
programs declare each package). -/
def registerProgram (tt : TypeTree) (program : Program) (file_path : Option String) :
    TypeTree :=
  let program_index := tt.programs.length
  let package_name := pkgNameOf program
  let tt := { tt with
    programs := tt.programs ++ [ProgramInfo.mk program file_path (some package_name)] }
  let tt :=
    match file_path with
    | some fp =>
        { tt with
          file_to_package := alInsert tt.file_to_package fp package_name
          import_graph :=
            alInsert tt.import_graph fp
              (program.imports.map (fun (imp : ImportStmt) => resolve_import_path fp imp.path)) }
    | none => tt
  { tt with
    package_to_programs :=
      alInsert tt.package_to_programs package_name
        ((alLookup tt.package_to_programs package_name).getD [] ++ [program_index]) }

/-- `TypeTree::collect_types_from_program`.  The Rust function returns
`Result` but never errs, so it is embedded as a pure update.  Note the
source's own quirk: the owning file is looked up by comparing package names
and definition counts, taking the first program that matches. -/
def collect_types_from_program (tt : TypeTree) (program : Program) : TypeTree :=
  let package_name := pkgNameOf program
  let file_path :=
    (tt.programs.find? (fun info =>
        pkgNameOf info.program = package_name ∧
        info.program.definitions.length = program.definitions.length)).bind
      (fun info => info.file_path)
  let step := fun (acc : TypeTree × List String) (definition : Definition) =>
    match definition with
    | .Schema schema =>
        let qualified_name := qualify package_name schema.name
        let node : TypeNode := ⟨qualified_name, .Schema schema, []⟩
        (({ acc.1 with nodes := alInsert acc.1.nodes qualified_name node }),
         acc.2 ++ [qualified_name])
    | .Enum enum_def =>
        let qualified_name := qualify package_name enum_def.name
        let node : TypeNode := ⟨qualified_name, .Enum enum_def, []⟩
        (({ acc.1 with nodes := alInsert acc.1.nodes qualified_name node }),
         acc.2 ++ [qualified_name])
    | .Service _ => acc
  let res := program.definitions.foldl step (tt, [])
  match file_path with
  | some path => { res.1 with file_to_types := alInsert res.1.file_to_types path res.2 }
  | none => res.1

/-- `TypeTree::resolve_schema_reference`.

The Rust function first looks up the program's file path with
`self.programs.iter().find(|info| std::ptr::eq(&info.program, current_program))`.
On the only live call path (`from_programs_with_paths` →
`build_dependencies_from_program` → `collect_type_dependencies`), the
`current_program` reference points into a *clone* of `tree.programs`, so the
pointer comparison always fails and `current_file` is always `None` there.
The embedding keeps `current_file` as an explicit parameter so both branches
of the source are represented; the construction path below passes `none`. -/
def resolve_schema_reference (tt : TypeTree) (schema_ref : SchemaRef)
    (current_program : Program) (current_file : Option String) :
    Except TypeTreeError String :=
  let current_package := pkgNameOf current_program
  match schema_ref.package with
  | some package =>
      -- Fully qualified reference
      let qualified_name := package.toStr ++ "." ++ schema_ref.name
      if (alLookup tt.nodes qualified_name).isSome then .ok qualified_name
      else .error (.TypeNotFound qualified_name)
  | none =>
      -- 1. Try the local package first
      let local_qualified := current_package ++ "." ++ schema_ref.name
      if current_package ≠ "" ∧ (alLookup tt.nodes local_qualified).isSome then
        .ok local_qualified
      -- 2. Try without package (root level)
      else if (alLookup tt.nodes schema_ref.name).isSome then
        .ok schema_ref.name
      else
        -- 3. Try packages from imported files (resolved paths when the file
        -- is known, otherwise the legacy fallback over the raw import paths)
        let candidates : List String :=
          match current_file with
          | some file_path =>
              ((alLookup tt.import_graph file_path).getD []).filterMap
                (fun imported_file =>
                  (alLookup tt.file_to_package imported_file).map
                    (fun import_package => import_package ++ "." ++ schema_ref.name))
          | none =>
              current_program.imports.filterMap
                (fun imp =>
                  (alLookup tt.file_to_package imp.path).map
                    (fun import_package => import_package ++ "." ++ schema_ref.name))
        match candidates.find? (fun q => (alLookup tt.nodes q).isSome) with
        | some q => .ok q
        | none => .error (.TypeNotFound schema_ref.name)

/-- `TypeTree::collect_type_dependencies` (the `dependencies` set is threaded
explicitly instead of being mutated). -/
def collect_type_dependencies (tt : TypeTree) (ty : GType)
    (current_program : Program) (current_file : Option String)
    (dependencies : List String) : Except TypeTreeError (List String) :=
  match ty with
  | .Primitive _ => .ok dependencies
  | .Option inner =>
      collect_type_dependencies tt inner current_program current_file dependencies
  | .Vec inner =>
      collect_type_dependencies tt inner current_program current_file dependencies
  | .SchemaRef schema_ref =>
      match resolve_schema_reference tt schema_ref current_program current_file with
      | .ok qualified_name => .ok (slInsert dependencies qualified_name)
      | .error e => .error e

/-- `TypeTree::build_dependencies_from_program`.  `current_file` is `none`
on this path (see `resolve_schema_reference`). -/
def build_dependencies_from_program (tt : TypeTree) (program : Program) :
    Except TypeTreeError TypeTree :=
  let package_name := pkgNameOf program
  program.definitions.foldlM
    (fun (acc : TypeTree) (definition : Definition) =>
      match definition with
      | .Schema schema => do
          let qualified_name := qualify package_name schema.name
          let dependencies ← schema.fields.foldlM
            (fun deps field =>
              collect_type_dependencies acc field.field_type program none deps) []
          pure { acc with
                 nodes := alModify acc.nodes qualified_name
                   (fun node => { node with dependencies := dependencies }) }
      | .Enum _ => pure acc
      | .Service _ => pure acc)
    tt

/-! ### Cycle detection

`detect_cycle_dfs` (over type dependencies) and `detect_import_cycle_dfs`
(over the import graph) are structurally identical depth-first searches:
mark the node visited, push it on the recursion stack and path, loop over
its successors — recurse into unvisited ones, and report a cycle when a
successor is on the recursion stack.  The recursion stack mirrors the path
exactly (both are pushed and popped together in the source), so the
embedding keeps a single `path` list and tests membership in it.  The shared
shape is embedded once as `cycleDfs`, parameterised by the successor
function; the recursion is bounded by a fuel argument, which the callers
instantiate with more fuel than there are reachable vertices. -/

/-- `path[path.iter().position(|x| x == d).unwrap()..]`: the suffix of the
path starting at the first occurrence of `d`. -/
def suffixFrom : List String → String → List String
  | [], _ => []
  | x :: xs, d => if x = d then x :: xs else suffixFrom xs d

/-- The common body of `detect_cycle_dfs` / `detect_import_cycle_dfs`.
An error `(suffix, d)` is the detected cycle: the path suffix from the
first occurrence of `d`, together with the back-edge target `d`.
On success the updated visited set is returned; the recursion stack and
path revert to the caller's copies, as in the source. -/
def cycleDfs (succ : String → List String) :
    Nat → String → List String → List String →
    Except (List String × String) (List String)
  | 0, _, visited, _ => .ok visited
  | fuel + 1, u, visited, path =>
      let path' := path ++ [u]
      (succ u).foldlM
        (fun vis d =>
          if d ∉ vis then
            cycleDfs succ fuel d vis path'
          else if d ∈ path' then
            .error (suffixFrom path' d, d)
          else
            .ok vis)
        (slInsert visited u)

/-- The outer loops of `validate_no_cycles` / `detect_circular_imports`:
walk every key in iteration order, running the DFS on unvisited ones. -/
def runCycleChecks (succ : String → List String) (fuel : Nat) :
    List String → List String → Option (List String × String)
  | [], _ => none
  | k :: ks, visited =>
      if k ∈ visited then runCycleChecks succ fuel ks visited
      else
        match cycleDfs succ fuel k visited [] with
        | .error e => some e
        | .ok visited' => runCycleChecks succ fuel ks visited'

/-- Successor function of the type-dependency graph: the dependency set of
the node, iterated in hash order `σ`. -/
def typeSucc (σ : List String → List String) (tt : TypeTree) (u : String) :
    List String :=
  σ (((alLookup tt.nodes u).map (fun n => n.dependencies)).getD [])

/-- Fuel that strictly dominates the number of vertices the type-dependency
DFS can ever visit. -/
def typeFuel (tt : TypeTree) : Nat :=
  (alKeys tt.nodes ++ (tt.nodes.map (fun p => p.2.dependencies)).flatten).length + 1

/-- `TypeTree::validate_no_cycles`: DFS from every node key (in hash order
`σ`); a detected cycle is rendered as
`path[cycle_start..].join(" -> ") + " -> " + dependency`. -/
def validate_no_cycles (σ : List String → List String) (tt : TypeTree) :
    Except TypeTreeError Unit :=
  match runCycleChecks (typeSucc σ tt) (typeFuel tt) (σ (alKeys tt.nodes)) [] with
  | none => .ok ()
  | some (suffix, d) =>
      .error (.CircularDependency (String.intercalate " -> " suffix ++ " -> " ++ d))

/-- Successor function of the import graph (`import_graph` values are
`Vec`s, so they iterate in their stored order, no `σ`). -/
def importSucc (tt : TypeTree) (u : String) : List String :=
  (alLookup tt.import_graph u).getD []

/-- Fuel dominating the number of vertices the import DFS can visit. -/
def importFuel (tt : TypeTree) : Nat :=
  (alKeys tt.import_graph ++ (tt.import_graph.map Prod.snd).flatten).length + 1

/-- `TypeTree::detect_circular_imports`: DFS from every import-graph key in
hash order `σ`; the inner DFS already closes the cycle
(`cycle.push(imported_file)`), and the outer completion branch appends the
first element again should first and last ever differ. -/
def detect_circular_imports (σ : List String → List String) (tt : TypeTree) :
    Option (List String) :=
  match runCycleChecks (importSucc tt) (importFuel tt) (σ (alKeys tt.import_graph)) [] with
  | none => none
  | some (suffix, d) =>
      let cycle := suffix ++ [d]
      if cycle.head? = cycle.getLast? then cycle
      else
        match cycle.head? with
        | some first => cycle ++ [first]
        | none => cycle

/-- `TypeTree::find_original_import`: scan the registered programs for the
one(s) at `file_path` and return the first import statement whose
resolution equals `resolved_path`. -/
def find_original_import (tt : TypeTree) (file_path resolved_path : String) :
    Option String :=
  tt.programs.findSome? (fun info =>
    if info.file_path = some file_path then
      info.program.imports.findSome? (fun imp =>
        if resolve_import_path file_path imp.path = resolved_path then some imp.path
        else none)
    else none)

/-- The error accumulation loop of `TypeTree::validate_imports` (the
`errors` vector): every import edge whose resolved target is not a
registered file yields a `FileNotFound`, citing the replayed
original import string when one is found. -/
def missingImportErrors (σ : List String → List String) (tt : TypeTree) :
    List ImportValidationError :=
  (σ (alKeys tt.import_graph)).flatMap (fun file_path =>
    ((alLookup tt.import_graph file_path).getD []).filterMap (fun imported_file =>
      if (alLookup tt.file_to_package imported_file).isSome then none
      else
        some (.FileNotFound
          ((find_original_import tt file_path imported_file).getD imported_file)
          file_path imported_file)))

/-- `TypeTree::validate_imports`: a circular import short-circuits as the
only error; otherwise the accumulated `FileNotFound` errors are returned
when non-empty. -/
def validate_imports (σ : List String → List String) (tt : TypeTree) :
    Except (List ImportValidationError) Unit :=
  match detect_circular_imports σ tt with
  | some cycle => .error [.CircularImport cycle]
  | none =>
      if missingImportErrors σ tt = [] then .ok ()
      else .error (missingImportErrors σ tt)

/-! ### `from_programs_with_paths` / `from_programs` -/

/-- The pure part of `from_programs_with_paths`: registration of every
program, then the collection pass, then the dependency pass (the two passes
iterate over a snapshot of `tree.programs`, as the source clones it). -/
def buildTree (programs_with_paths : List (Program × Option String)) :
    Except TypeTreeError TypeTree :=
  let tt := programs_with_paths.foldl
    (fun t pf => registerProgram t pf.1 pf.2) TypeTree.new
  let snapshot := tt.programs
  let tt := snapshot.foldl (fun t info => collect_types_from_program t info.program) tt
  snapshot.foldlM (fun t info => build_dependencies_from_program t info.program) tt

/-- `TypeTree::from_programs_with_paths`, with `σ` the hash iteration order
used by cycle validation. -/
def from_programs_with_paths (σ : List String → List String)
    (programs_with_paths : List (Program × Option String)) :
    Except TypeTreeError TypeTree :=
  match buildTree programs_with_paths with
  | .error e => .error e
  | .ok tt =>
      match validate_no_cycles σ tt with
      | .error e => .error e
      | .ok _ => .ok tt

/-- `TypeTree::from_programs`. -/
def from_programs (σ : List String → List String) (programs : List Program) :
    Except TypeTreeError TypeTree :=
  from_programs_with_paths σ (programs.map (fun p => (p, none)))

/-- `TypeTree::get_dependencies` (`None` mapped to `[]` for convenience in
statements; the raw node is available through `alLookup tt.nodes`). -/
def depsOf (tt : TypeTree) (qualified_name : String) : List String :=
  ((alLookup tt.nodes qualified_name).map (fun n => n.dependencies)).getD []

/-- The type-dependency edge relation of a tree, independent of any
iteration order. -/
def DependsOn (tt : TypeTree) (u v : String) : Prop :=
  v ∈ depsOf tt u

/-- The import-graph edge relation of a tree. -/
def ImportsEdge (tt : TypeTree) (u v : String) : Prop :=
  v ∈ importSucc tt u

/-! ### Basic facts about the container embeddings -/

theorem alLookup_mem {α : Type} :
    ∀ {m : List (String × α)} {k : String} {v : α},
      alLookup m k = some v → (k, v) ∈ m := by
  intro m
  induction m with
  | nil => intro k v h; simp [alLookup] at h
  | cons p rest ih =>
      obtain ⟨k', v'⟩ := p
      intro k v h
      rw [alLookup] at h
      by_cases hk : k' = k
      · simp only [hk, if_true, Option.some.injEq] at h
        subst hk
        subst h
        exact List.mem_cons_self _ _
      · simp only [hk, if_false] at h
        exact List.mem_cons_of_mem _ (ih h)

theorem alLookup_isSome_mem_keys {α : Type} {m : List (String × α)} {k : String}
    (h : (alLookup m k).isSome) : k ∈ alKeys m := by
  rcases Option.isSome_iff_exists.mp h with ⟨v, hv⟩
  have := alLookup_mem hv
  exact List.mem_map.mpr ⟨(k, v), this, rfl⟩

theorem slInsert_self_mem {s : List String} {x : String} : x ∈ slInsert s x := by
  unfold slInsert
  by_cases h : x ∈ s <;> simp [h]

theorem slInsert_mem_of_mem {s : List String} {x y : String} (h : y ∈ s) :
    y ∈ slInsert s x := by
  unfold slInsert
  by_cases hx : x ∈ s <;> simp [hx, h]

theorem mem_slInsert {s : List String} {x y : String} :
    y ∈ slInsert s x ↔ y ∈ s ∨ y = x := by
  unfold slInsert
  by_cases hx : x ∈ s
  · simp only [hx, if_true]
    constructor
    · exact fun h => Or.inl h
    · rintro (h | rfl)
      · exact h
      · exact hx
  · simp [hx]

theorem slInsert_toFinset {s : List String} {x : String} :
    (slInsert s x).toFinset = insert x s.toFinset := by
  unfold slInsert
  by_cases hx : x ∈ s
  · simp only [hx, if_true]
    have : x ∈ s.toFinset := List.mem_toFinset.mpr hx
    rw [Finset.insert_eq_self.mpr this]
  · simp only [hx, if_false, List.toFinset_append]
    simp [Finset.union_comm, Finset.insert_eq]

theorem suffixFrom_isSuffix {d : String} :
    ∀ l : List String, suffixFrom l d <:+ l := by
  intro l
  induction l with
  | nil => simp [suffixFrom]
  | cons x xs ih =>
      rw [suffixFrom]
      by_cases hx : x = d
      · simp [hx]
      · simp only [hx, if_false]
        exact ih.trans (List.suffix_cons x xs)

theorem suffixFrom_head {d : String} :
    ∀ {l : List String}, d ∈ l → ∃ t, suffixFrom l d = d :: t := by
  intro l
  induction l with
  | nil => intro h; simp at h
  | cons x xs ih =>
      intro h
      rw [suffixFrom]
      by_cases hx : x = d
      · subst hx; exact ⟨xs, by simp⟩
      · simp only [hx, if_false]
        rcases List.mem_cons.mp h with h | h
        · exact absurd h.symm hx
        · exact ih h

/-! ### Counting the unvisited part of a fixed universe (fuel adequacy) -/

/-- The number of strings of `U` not yet in `visited`; strictly decreases
whenever an unvisited element of `U` is inserted. -/
def freshCount (U visited : List String) : Nat :=
  (U.toFinset \ visited.toFinset).card

theorem freshCount_nil_le (U : List String) : freshCount U [] ≤ U.length := by
  unfold freshCount
  simp only [List.toFinset_nil, Finset.sdiff_empty]
  exact U.toFinset_card_le

theorem freshCount_mono {U v v' : List String} (h : ∀ x ∈ v, x ∈ v') :
    freshCount U v' ≤ freshCount U v := by
  unfold freshCount
  apply Finset.card_le_card
  apply Finset.sdiff_subset_sdiff (le_refl _)
  intro x hx
  exact List.mem_toFinset.mpr (h x (List.mem_toFinset.mp hx))

theorem freshCount_slInsert_lt {U v : List String} {u : String}
    (hU : u ∈ U) (hv : u ∉ v) :
    freshCount U (slInsert v u) < freshCount U v := by
  unfold freshCount
  rw [slInsert_toFinset]
  apply Finset.card_lt_card
  constructor
  · apply Finset.sdiff_subset_sdiff (le_refl _)
    intro x hx
    exact Finset.mem_insert_of_mem hx
  · intro hsub
    have hu : u ∈ U.toFinset \ v.toFinset := by
      simp [List.mem_toFinset, hU, hv]
    have := hsub hu
    simp [List.mem_toFinset] at this

/-! ### The DFS invariant -/

/-- Invariant of the cycle-detecting DFS: the path (= recursion stack) is
visited; a finished ("black") node — visited but no longer on the path —
has only black successors and lies on no cycle. -/
structure DfsInv (succ : String → List String) (visited path : List String) : Prop where
  path_vis : ∀ x ∈ path, x ∈ visited
  closed : ∀ x, x ∈ visited → x ∉ path → ∀ y, y ∈ succ x → y ∈ visited ∧ y ∉ path
  acyc : ∀ x, x ∈ visited → x ∉ path → ¬ Relation.TransGen (fun a b => b ∈ succ a) x x

theorem DfsInv.reach_closed {succ : String → List String} {visited path : List String}
    (inv : DfsInv succ visited path) {x y : String}
    (hx : x ∈ visited) (hxp : x ∉ path)
    (h : Relation.ReflTransGen (fun a b => b ∈ succ a) x y) :
    y ∈ visited ∧ y ∉ path := by
  induction h with
  | refl => exact ⟨hx, hxp⟩
  | tail _ hbc ih => exact inv.closed _ ih.1 ih.2 _ hbc

theorem DfsInv.empty (succ : String → List String) : DfsInv succ [] [] := by
  refine ⟨?_, ?_, ?_⟩ <;> intro x hx <;> simp at hx

/-! ### Success analysis of the DFS: a completed search blackens its root
and preserves the invariant, so success over all keys implies acyclicity -/

theorem exceptBind_ok {ε α β : Type} (a : α) (f : α → Except ε β) :
    (Except.ok a >>= f) = f a := rfl

theorem exceptBind_error {ε α β : Type} (e : ε) (f : α → Except ε β) :
    ((Except.error e : Except ε α) >>= f) = .error e := rfl

theorem cycleDfs_succ_eq (succ : String → List String) (fuel : Nat)
    (u : String) (visited path : List String) :
    cycleDfs succ (fuel + 1) u visited path =
      (succ u).foldlM
        (fun vis d =>
          if d ∉ vis then cycleDfs succ fuel d vis (path ++ [u])
          else if d ∈ path ++ [u] then .error (suffixFrom (path ++ [u]) d, d)
          else .ok vis)
        (slInsert visited u) := rfl

set_option linter.unusedVariables false in
theorem cycleDfs_fold_ok (succ : String → List String) (U : List String)
    (hU : ∀ u d, d ∈ succ u → d ∈ U) (fuel : Nat)
    (IH : ∀ u visited path visited', u ∈ U → u ∉ visited →
        freshCount U visited < fuel → DfsInv succ visited path →
        cycleDfs succ fuel u visited path = .ok visited' →
        (∀ x ∈ visited, x ∈ visited') ∧ u ∈ visited' ∧ DfsInv succ visited' path ∧
          (∀ x ∈ visited', x ∈ visited ∨ x ∈ U)) :
    ∀ (ds : List String) (visited path' visited' : List String),
      (∀ d ∈ ds, d ∈ U) →
      freshCount U visited < fuel →
      DfsInv succ visited path' →
      ds.foldlM (fun vis d =>
          if d ∉ vis then cycleDfs succ fuel d vis path'
          else if d ∈ path' then Except.error (suffixFrom path' d, d)
          else Except.ok vis) visited = Except.ok visited' →
      (∀ x ∈ visited, x ∈ visited') ∧ DfsInv succ visited' path' ∧
        (∀ d ∈ ds, d ∈ visited' ∧ d ∉ path') ∧
        (∀ x ∈ visited', x ∈ visited ∨ x ∈ U) := by
  intro ds
  induction ds with
  | nil =>
      intro visited path' visited' _ _ hinv hfold
      simp only [List.foldlM_nil] at hfold
      have : visited = visited' := by
        have : (Except.ok visited : Except (List String × String) (List String)) =
            Except.ok visited' := hfold
        exact Except.ok.inj this
      subst this
      exact ⟨fun x hx => hx, hinv, by simp, fun x hx => Or.inl hx⟩
  | cons d ds ih =>
      intro visited path' visited' hds hfresh hinv hfold
      rw [List.foldlM_cons] at hfold
      by_cases hdv : d ∈ visited
      · have hcond : ¬ (d ∉ visited) := not_not_intro hdv
        rw [if_neg hcond] at hfold
        by_cases hdp : d ∈ path'
        · rw [if_pos hdp, exceptBind_error] at hfold
          exact nomatch hfold
        · rw [if_neg hdp, exceptBind_ok] at hfold
          obtain ⟨hsub, hinv', hsett, hgrow⟩ :=
            ih visited path' visited' (fun x hx => hds x (List.mem_cons_of_mem _ hx))
              hfresh hinv hfold
          refine ⟨hsub, hinv', ?_, hgrow⟩
          intro x hx
          rcases List.mem_cons.mp hx with rfl | hx
          · exact ⟨hsub _ hdv, hdp⟩
          · exact hsett x hx
      · rw [if_pos hdv] at hfold
        cases hrun : cycleDfs succ fuel d visited path' with
        | error e =>
            rw [hrun, exceptBind_error] at hfold
            exact nomatch hfold
        | ok vis1 =>
            rw [hrun, exceptBind_ok] at hfold
            obtain ⟨hsub1, hdin1, hinv1, hgrow1⟩ :=
              IH d visited path' vis1 (hds d (List.mem_cons_self _ _)) hdv hfresh hinv hrun
            have hfresh1 : freshCount U vis1 < fuel :=
              lt_of_le_of_lt (freshCount_mono hsub1) hfresh
            obtain ⟨hsub2, hinv2, hsett2, hgrow2⟩ :=
              ih vis1 path' visited' (fun x hx => hds x (List.mem_cons_of_mem _ hx))
                hfresh1 hinv1 hfold
            have hdp : d ∉ path' := fun h => hdv (hinv.path_vis d h)
            refine ⟨fun x hx => hsub2 x (hsub1 x hx), hinv2, ?_, ?_⟩
            · intro x hx
              rcases List.mem_cons.mp hx with rfl | hx
              · exact ⟨hsub2 _ hdin1, hdp⟩
              · exact hsett2 x hx
            · intro x hx
              rcases hgrow2 x hx with hx1 | hx1
              · exact hgrow1 x hx1
              · exact Or.inr hx1

theorem cycleDfs_ok (succ : String → List String) (U : List String)
    (hU : ∀ u d, d ∈ succ u → d ∈ U) :
    ∀ (fuel : Nat) (u : String) (visited path visited' : List String),
      u ∈ U → u ∉ visited → freshCount U visited < fuel → DfsInv succ visited path →
      cycleDfs succ fuel u visited path = .ok visited' →
      (∀ x ∈ visited, x ∈ visited') ∧ u ∈ visited' ∧ DfsInv succ visited' path ∧
        (∀ x ∈ visited', x ∈ visited ∨ x ∈ U) := by
  intro fuel
  induction fuel with
  | zero =>
      intro u visited path visited' _ _ hfresh _ _
      omega
  | succ fuel IH =>
      intro u visited path visited' hu hunv hfresh hinv hrun
      rw [cycleDfs_succ_eq] at hrun
      have hup : u ∉ path := fun h => hunv (hinv.path_vis u h)
      have hinv1 : DfsInv succ (slInsert visited u) (path ++ [u]) := by
        constructor
        · intro x hx
          rcases List.mem_append.mp hx with h | h
          · exact slInsert_mem_of_mem (hinv.path_vis x h)
          · simp only [List.mem_singleton] at h
            subst h
            exact slInsert_self_mem
        · intro x hxv hxp y hy
          have hxu : x ≠ u := fun h => hxp (by simp [h])
          have hxv' : x ∈ visited := by
            rcases mem_slInsert.mp hxv with h | h
            · exact h
            · exact absurd h hxu
          have hxp' : x ∉ path := fun h => hxp (List.mem_append.mpr (Or.inl h))
          have hcl := hinv.closed x hxv' hxp' y hy
          refine ⟨slInsert_mem_of_mem hcl.1, ?_⟩
          intro hyP
          rcases List.mem_append.mp hyP with h | h
          · exact hcl.2 h
          · simp only [List.mem_singleton] at h
            subst h
            exact hunv hcl.1
        · intro x hxv hxp hcyc
          have hxu : x ≠ u := fun h => hxp (by simp [h])
          have hxv' : x ∈ visited := by
            rcases mem_slInsert.mp hxv with h | h
            · exact h
            · exact absurd h hxu
          have hxp' : x ∉ path := fun h => hxp (List.mem_append.mpr (Or.inl h))
          exact hinv.acyc x hxv' hxp' hcyc
      have hfresh1 : freshCount U (slInsert visited u) < fuel := by
        have h1 := freshCount_slInsert_lt hu hunv
        omega
      obtain ⟨hsub, hinv2, hsett, hgrow⟩ :=
        cycleDfs_fold_ok succ U hU fuel IH (succ u) (slInsert visited u) (path ++ [u])
          visited' (fun d hd => hU u d hd) hfresh1 hinv1 hrun
      refine ⟨fun x hx => hsub x (slInsert_mem_of_mem hx), hsub u slInsert_self_mem, ?_, ?_⟩
      · constructor
        · intro x hx
          exact hsub x (slInsert_mem_of_mem (hinv.path_vis x hx))
        · intro x hxv hxp y hy
          by_cases hxu : x = u
          · subst hxu
            have hs := hsett y hy
            refine ⟨hs.1, fun hyp => hs.2 (List.mem_append.mpr (Or.inl hyp))⟩
          · have hx' : x ∉ path ++ [u] := by
              intro h
              rcases List.mem_append.mp h with h | h
              · exact hxp h
              · simp only [List.mem_singleton] at h
                exact hxu h
            have hcl := hinv2.closed x hxv hx' y hy
            exact ⟨hcl.1, fun hyp => hcl.2 (List.mem_append.mpr (Or.inl hyp))⟩
        · intro x hxv hxp hcyc
          by_cases hxu : x = u
          · subst hxu
            rcases (Relation.TransGen.head'_iff).mp hcyc with ⟨w, hw, hreach⟩
            have hs := hsett w hw
            have hr := hinv2.reach_closed hs.1 hs.2 hreach
            exact hr.2 (List.mem_append.mpr (Or.inr (by simp)))
          · have hx' : x ∉ path ++ [u] := by
              intro h
              rcases List.mem_append.mp h with h | h
              · exact hxp h
              · simp only [List.mem_singleton] at h
                exact hxu h
            exact hinv2.acyc x hxv hx' hcyc
      · intro x hx
        rcases hgrow x hx with hx1 | hx1
        · rcases mem_slInsert.mp hx1 with h | rfl
          · exact Or.inl h
          · exact Or.inr hu
        · exact Or.inr hx1

/-! ### Error analysis of the DFS: a reported cycle is a genuine cycle -/

theorem getLast?_of_isSuffix {l l' : List String} (h : l' <:+ l) (hne : l' ≠ []) :
    l'.getLast? = l.getLast? := by
  rcases h with ⟨pre, rfl⟩
  exact (List.getLast?_append_of_ne_nil pre hne).symm

theorem chain'_of_isSuffix {R : String → String → Prop} {l l' : List String}
    (h : l' <:+ l) (hc : List.Chain' R l) : List.Chain' R l' := by
  rcases h with ⟨pre, rfl⟩
  exact (List.chain'_append.mp hc).2.1

theorem cycleDfs_fold_error (succ : String → List String) (fuel : Nat)
    (IH : ∀ u visited path suffix d,
        List.Chain' (fun a b => b ∈ succ a) (path ++ [u]) →
        cycleDfs succ fuel u visited path = .error (suffix, d) →
        ∃ t, suffix = d :: t ∧
          List.Chain' (fun a b => b ∈ succ a) (suffix ++ [d])) :
    ∀ (ds : List String) (visited path' : List String) (u0 : String)
      (suffix : List String) (d : String),
      path'.getLast? = some u0 →
      (∀ x ∈ ds, x ∈ succ u0) →
      List.Chain' (fun a b => b ∈ succ a) path' →
      ds.foldlM (fun vis x =>
          if x ∉ vis then cycleDfs succ fuel x vis path'
          else if x ∈ path' then Except.error (suffixFrom path' x, x)
          else Except.ok vis) visited = Except.error (suffix, d) →
      ∃ t, suffix = d :: t ∧
        List.Chain' (fun a b => b ∈ succ a) (suffix ++ [d]) := by
  intro ds
  induction ds with
  | nil =>
      intro visited path' u0 suffix d _ _ _ hfold
      simp only [List.foldlM_nil] at hfold
      exact nomatch hfold
  | cons x ds ih =>
      intro visited path' u0 suffix d hlast hds hchain hfold
      rw [List.foldlM_cons] at hfold
      by_cases hxv : x ∈ visited
      · have hcond : ¬ (x ∉ visited) := not_not_intro hxv
        rw [if_neg hcond] at hfold
        by_cases hxp : x ∈ path'
        · rw [if_pos hxp, exceptBind_error] at hfold
          have hinj : suffixFrom path' x = suffix ∧ x = d := by
            have := Except.error.inj hfold
            exact ⟨congrArg Prod.fst this, congrArg Prod.snd this⟩
          obtain ⟨hsfx, rfl⟩ := hinj
          obtain ⟨t, ht⟩ := suffixFrom_head hxp
          have hsuf := suffixFrom_isSuffix (d := x) (l := path')
          have hne : suffixFrom path' x ≠ [] := by rw [ht]; simp
          refine ⟨t, by rw [← hsfx, ht], ?_⟩
          rw [← hsfx]
          rw [List.chain'_append]
          refine ⟨chain'_of_isSuffix hsuf hchain, List.chain'_singleton x, ?_⟩
          intro a ha b hb
          simp only [List.head?_cons, Option.mem_def, Option.some.injEq] at hb
          subst hb
          rw [getLast?_of_isSuffix hsuf hne, hlast] at ha
          simp only [Option.mem_def, Option.some.injEq] at ha
          subst ha
          exact hds x (List.mem_cons_self _ _)
        · rw [if_neg hxp, exceptBind_ok] at hfold
          exact ih visited path' u0 suffix d hlast
            (fun y hy => hds y (List.mem_cons_of_mem _ hy)) hchain hfold
      · rw [if_pos hxv] at hfold
        cases hrun : cycleDfs succ fuel x visited path' with
        | error e =>
            rw [hrun, exceptBind_error] at hfold
            have he : e = (suffix, d) := Except.error.inj hfold
            subst he
            have hchain' : List.Chain' (fun a b => b ∈ succ a) (path' ++ [x]) := by
              rw [List.chain'_append]
              refine ⟨hchain, List.chain'_singleton x, ?_⟩
              intro a ha b hb
              simp only [List.head?_cons, Option.mem_def, Option.some.injEq] at hb
              subst hb
              rw [hlast] at ha
              simp only [Option.mem_def, Option.some.injEq] at ha
              subst ha
              exact hds x (List.mem_cons_self _ _)
            exact IH x visited path' suffix d hchain' hrun
        | ok vis1 =>
            rw [hrun, exceptBind_ok] at hfold
            exact ih vis1 path' u0 suffix d hlast
              (fun y hy => hds y (List.mem_cons_of_mem _ hy)) hchain hfold

theorem cycleDfs_error (succ : String → List String) :
    ∀ (fuel : Nat) (u : String) (visited path : List String)
      (suffix : List String) (d : String),
      List.Chain' (fun a b => b ∈ succ a) (path ++ [u]) →
      cycleDfs succ fuel u visited path = .error (suffix, d) →
      ∃ t, suffix = d :: t ∧
        List.Chain' (fun a b => b ∈ succ a) (suffix ++ [d]) := by
  intro fuel
  induction fuel with
  | zero =>
      intro u visited path suffix d _ h
      rw [cycleDfs] at h
      exact absurd h (by simp)
  | succ fuel IH =>
      intro u visited path suffix d hchain hrun
      rw [cycleDfs_succ_eq] at hrun
      exact cycleDfs_fold_error succ fuel IH (succ u) (slInsert visited u) (path ++ [u])
        u suffix d (List.getLast?_concat _) (fun x hx => hx) hchain hrun

/-! ### The outer loops -/

theorem runCycleChecks_none (succ : String → List String) (U : List String)
    (hU : ∀ u d, d ∈ succ u → d ∈ U) (fuel : Nat) :
    ∀ (ks : List String) (visited : List String),
      (∀ k ∈ ks, k ∈ U) → freshCount U visited < fuel → DfsInv succ visited [] →
      runCycleChecks succ fuel ks visited = none →
      ∀ k ∈ ks, ¬ Relation.TransGen (fun a b => b ∈ succ a) k k := by
  intro ks
  induction ks with
  | nil => intro visited _ _ _ _ k hk; simp at hk
  | cons k0 ks ih =>
      intro visited hks hfresh hinv hrun k hk
      rw [runCycleChecks] at hrun
      by_cases hkv : k0 ∈ visited
      · rw [if_pos hkv] at hrun
        rcases List.mem_cons.mp hk with rfl | hk
        · exact hinv.acyc k hkv (by simp)
        · exact ih visited (fun x hx => hks x (List.mem_cons_of_mem _ hx))
            hfresh hinv hrun k hk
      · rw [if_neg hkv] at hrun
        cases hd : cycleDfs succ fuel k0 visited [] with
        | error e => rw [hd] at hrun; simp at hrun
        | ok visited' =>
            rw [hd] at hrun
            obtain ⟨hsub, hkin, hinv', hgrow⟩ :=
              cycleDfs_ok succ U hU fuel k0 visited [] visited'
                (hks k0 (List.mem_cons_self _ _)) hkv hfresh hinv hd
            have hfresh' : freshCount U visited' < fuel :=
              lt_of_le_of_lt (freshCount_mono hsub) hfresh
            rcases List.mem_cons.mp hk with rfl | hk
            · exact hinv'.acyc k hkin (by simp)
            · exact ih visited' (fun x hx => hks x (List.mem_cons_of_mem _ hx))
                hfresh' hinv' hrun k hk

theorem runCycleChecks_some (succ : String → List String) (fuel : Nat) :
    ∀ (ks : List String) (visited : List String) (suffix : List String) (d : String),
      runCycleChecks succ fuel ks visited = some (suffix, d) →
      ∃ t, suffix = d :: t ∧
        List.Chain' (fun a b => b ∈ succ a) (suffix ++ [d]) := by
  intro ks
  induction ks with
  | nil => intro visited suffix d h; rw [runCycleChecks] at h; simp at h
  | cons k0 ks ih =>
      intro visited suffix d hrun
      rw [runCycleChecks] at hrun
      by_cases hkv : k0 ∈ visited
      · rw [if_pos hkv] at hrun
        exact ih visited suffix d hrun
      · rw [if_neg hkv] at hrun
        cases hd : cycleDfs succ fuel k0 visited [] with
        | error e =>
            rw [hd] at hrun
            have he : e = (suffix, d) := Option.some.inj hrun
            subst he
            exact cycleDfs_error succ fuel k0 visited [] suffix d
              (by simp) hd
        | ok visited' =>
            rw [hd] at hrun
            exact ih visited' suffix d hrun

/-! ### From chains to cycles and back -/

theorem chain'_reflTransGen {R : String → String → Prop} :
    ∀ (l : List String) (a b : String), List.Chain' R l →
      l.head? = some a → l.getLast? = some b →
      Relation.ReflTransGen R a b := by
  intro l
  induction l with
  | nil => intro a b _ h; simp at h
  | cons x xs ih =>
      intro a b hc hh hl
      have hxa : x = a := by simpa using hh
      subst hxa
      cases xs with
      | nil =>
          have hxb : x = b := by simpa using hl
          subst hxb
          exact Relation.ReflTransGen.refl
      | cons y ys =>
          rw [List.getLast?_cons_cons] at hl
          have hstep : R x y := (List.chain'_cons.mp hc).1
          have htail := (List.chain'_cons.mp hc).2
          exact Relation.ReflTransGen.head hstep (ih y b htail (by simp) hl)

theorem chain_cycle_transGen {R : String → String → Prop} {d : String} {t : List String}
    (h : List.Chain' R ((d :: t) ++ [d])) : Relation.TransGen R d d := by
  have h1 : List.Chain' R (d :: (t ++ [d])) := by simpa using h
  have hstep : R d (t ++ [d]).head?.iget := by
    have := (List.chain'_cons'.mp h1).1
    cases ht : t ++ [d] with
    | nil => simp at ht
    | cons y ys =>
        rw [ht] at this
        simpa using this y (by simp)
  have htail : List.Chain' R (t ++ [d]) := (List.chain'_cons'.mp h1).2
  cases ht : t ++ [d] with
  | nil => simp at ht
  | cons y ys =>
      rw [ht] at htail hstep
      simp only [List.head?_cons, Option.iget_some] at hstep
      have hlast : (y :: ys).getLast? = some d := by
        rw [← ht]
        exact List.getLast?_concat _
      exact Relation.TransGen.head' hstep
        (chain'_reflTransGen (y :: ys) y d htail (by simp) hlast)

theorem chain'_append_singleton_mem {R : String → String → Prop} :
    ∀ (l : List String) (b x : String),
      List.Chain' R (l ++ [b]) → x ∈ l → ∃ y, R x y := by
  intro l
  induction l with
  | nil => intro b x _ hx; simp at hx
  | cons a l' ih =>
      intro b x hc hx
      rcases List.mem_cons.mp hx with rfl | hx
      · have h1 : List.Chain' R (x :: (l' ++ [b])) := by simpa using hc
        have := (List.chain'_cons'.mp h1).1
        cases hl : l' ++ [b] with
        | nil => simp at hl
        | cons y ys =>
            rw [hl] at this
            exact ⟨y, this y (by simp)⟩
      · have h1 : List.Chain' R (a :: (l' ++ [b])) := by simpa using hc
        exact ih b x (List.chain'_cons'.mp h1).2 hx

theorem chain'_mem_head_or_target {R : String → String → Prop} :
    ∀ (l : List String) (x : String), List.Chain' R l → x ∈ l →
      l.head? = some x ∨ ∃ y, R y x := by
  intro l
  induction l with
  | nil => intro x _ hx; simp at hx
  | cons a rest ih =>
      intro x hc hx
      rcases List.mem_cons.mp hx with rfl | hx
      · exact Or.inl (by simp)
      · cases rest with
        | nil => simp at hx
        | cons b rest' =>
            rcases ih x (List.chain'_cons.mp hc).2 hx with hh | ht
            · simp only [List.head?_cons, Option.some.injEq] at hh
              subst hh
              exact Or.inr ⟨a, (List.chain'_cons.mp hc).1⟩
            · exact Or.inr ht

/-! ### Instantiation for the type-dependency cycle check -/

/-- Superset of all vertices the type-dependency DFS can reach. -/
def typeUniverse (tt : TypeTree) : List String :=
  alKeys tt.nodes ++ (tt.nodes.map (fun p => p.2.dependencies)).flatten

theorem typeFuel_eq (tt : TypeTree) : typeFuel tt = (typeUniverse tt).length + 1 := rfl

theorem typeSucc_mem_iff {σ : List String → List String} (hσ : ∀ l, (σ l).Perm l)
    (tt : TypeTree) (u v : String) : v ∈ typeSucc σ tt u ↔ DependsOn tt u v := by
  unfold typeSucc DependsOn depsOf
  exact (hσ _).mem_iff

theorem typeSucc_subset_universe {σ : List String → List String}
    (hσ : ∀ l, (σ l).Perm l) (tt : TypeTree) :
    ∀ u d, d ∈ typeSucc σ tt u → d ∈ typeUniverse tt := by
  intro u d hd
  rw [typeSucc_mem_iff hσ] at hd
  unfold DependsOn depsOf at hd
  cases hlook : alLookup tt.nodes u with
  | none => rw [hlook] at hd; simp at hd
  | some n =>
      rw [hlook] at hd
      simp only [Option.map_some', Option.getD_some] at hd
      have hmem : (u, n) ∈ tt.nodes := alLookup_mem hlook
      unfold typeUniverse
      apply List.mem_append.mpr
      right
      apply List.mem_flatten.mpr
      exact ⟨n.dependencies, List.mem_map.mpr ⟨(u, n), hmem, rfl⟩, hd⟩

theorem alKeys_subset_typeUniverse (tt : TypeTree) :
    ∀ k ∈ alKeys tt.nodes, k ∈ typeUniverse tt := by
  intro k hk
  exact List.mem_append.mpr (Or.inl hk)

/-- Soundness and completeness of `validate_no_cycles`, combined: the check
succeeds exactly when the dependency relation of the tree has no cycle, and
any error it produces renders a genuine dependency cycle. -/
theorem validate_no_cycles_ok_acyclic {σ : List String → List String}
    (hσ : ∀ l, (σ l).Perm l) (tt : TypeTree)
    (h : validate_no_cycles σ tt = .ok ()) :
    ∀ u, ¬ Relation.TransGen (DependsOn tt) u u := by
  intro u hcyc
  unfold validate_no_cycles at h
  cases hrun : runCycleChecks (typeSucc σ tt) (typeFuel tt) (σ (alKeys tt.nodes)) [] with
  | some e => rw [hrun] at h; obtain ⟨s, d⟩ := e; exact nomatch h
  | none =>
      have hcyc' : Relation.TransGen (fun a b => b ∈ typeSucc σ tt a) u u :=
        Relation.TransGen.mono (fun a b hab => (typeSucc_mem_iff hσ tt a b).mpr hab) hcyc
      -- u has an outgoing edge, hence is a node key
      have hu : u ∈ alKeys tt.nodes := by
        rcases (Relation.TransGen.head'_iff).mp hcyc with ⟨w, hw, _⟩
        unfold DependsOn depsOf at hw
        cases hlook : alLookup tt.nodes u with
        | none => rw [hlook] at hw; simp at hw
        | some n => exact alLookup_isSome_mem_keys (by rw [hlook]; rfl)
      have huσ : u ∈ σ (alKeys tt.nodes) := (hσ _).mem_iff.mpr hu
      have hfresh : freshCount (typeUniverse tt) [] < typeFuel tt := by
        rw [typeFuel_eq]
        exact Nat.lt_succ_of_le (freshCount_nil_le _)
      have := runCycleChecks_none (typeSucc σ tt) (typeUniverse tt)
        (typeSucc_subset_universe hσ tt) (typeFuel tt) (σ (alKeys tt.nodes)) []
        (fun k hk => alKeys_subset_typeUniverse tt k ((hσ _).mem_iff.mp hk))
        hfresh (DfsInv.empty _) hrun u huσ
      exact this hcyc'

theorem validate_no_cycles_error_shape {σ : List String → List String}
    (hσ : ∀ l, (σ l).Perm l) (tt : TypeTree) (e : TypeTreeError)
    (h : validate_no_cycles σ tt = .error e) :
    ∃ (t : List String) (d : String),
      e = .CircularDependency (String.intercalate " -> " (d :: t) ++ " -> " ++ d) ∧
      List.Chain' (DependsOn tt) ((d :: t) ++ [d]) := by
  unfold validate_no_cycles at h
  cases hrun : runCycleChecks (typeSucc σ tt) (typeFuel tt) (σ (alKeys tt.nodes)) [] with
  | none => rw [hrun] at h; exact nomatch h
  | some p =>
      rw [hrun] at h
      obtain ⟨suffix, d⟩ := p
      obtain ⟨t, rfl, hchain⟩ :=
        runCycleChecks_some (typeSucc σ tt) (typeFuel tt) (σ (alKeys tt.nodes)) []
          suffix d hrun
      refine ⟨t, d, (Except.error.inj h).symm, ?_⟩
      exact hchain.imp (fun a b hab => (typeSucc_mem_iff hσ tt a b).mp hab)

theorem validate_no_cycles_error_of_cycle {σ : List String → List String}
    (hσ : ∀ l, (σ l).Perm l) (tt : TypeTree) {u : String}
    (hcyc : Relation.TransGen (DependsOn tt) u u) :
    ∃ e, validate_no_cycles σ tt = .error e := by
  cases h : validate_no_cycles σ tt with
  | ok v =>
      cases v
      exact absurd hcyc (validate_no_cycles_ok_acyclic hσ tt h u)
  | error e => exact ⟨e, rfl⟩

/-! ### Instantiation for the import cycle check -/

/-- Superset of all vertices the import DFS can reach. -/
def importUniverse (tt : TypeTree) : List String :=
  alKeys tt.import_graph ++ (tt.import_graph.map Prod.snd).flatten

theorem importFuel_eq (tt : TypeTree) : importFuel tt = (importUniverse tt).length + 1 := rfl

theorem ImportsEdge.src_mem_keys {tt : TypeTree} {x y : String}
    (h : ImportsEdge tt x y) : x ∈ alKeys tt.import_graph := by
  unfold ImportsEdge importSucc at h
  cases hlook : alLookup tt.import_graph x with
  | none => rw [hlook] at h; simp at h
  | some l => exact alLookup_isSome_mem_keys (by rw [hlook]; rfl)

theorem importSucc_subset_universe (tt : TypeTree) :
    ∀ u d, d ∈ importSucc tt u → d ∈ importUniverse tt := by
  intro u d hd
  unfold importSucc at hd
  cases hlook : alLookup tt.import_graph u with
  | none => rw [hlook] at hd; simp at hd
  | some l =>
      rw [hlook] at hd
      simp only [Option.getD_some] at hd
      have hmem : (u, l) ∈ tt.import_graph := alLookup_mem hlook
      unfold importUniverse
      apply List.mem_append.mpr
      right
      exact List.mem_flatten.mpr ⟨l, List.mem_map.mpr ⟨(u, l), hmem, rfl⟩, hd⟩

theorem detect_circular_imports_run_some {σ : List String → List String}
    {tt : TypeTree} {p : List String × String}
    (hrun : runCycleChecks (importSucc tt) (importFuel tt)
      (σ (alKeys tt.import_graph)) [] = some p) :
    ∃ c, detect_circular_imports σ tt = some c := by
  unfold detect_circular_imports
  rw [hrun]
  obtain ⟨s, d⟩ := p
  dsimp only
  split
  · exact ⟨_, rfl⟩
  · split
    · exact ⟨_, rfl⟩
    · exact ⟨_, rfl⟩

theorem detect_circular_imports_none_acyclic {σ : List String → List String}
    (hσ : ∀ l, (σ l).Perm l) (tt : TypeTree)
    (h : detect_circular_imports σ tt = none) :
    ∀ f, ¬ Relation.TransGen (ImportsEdge tt) f f := by
  intro f hcyc
  cases hrun : runCycleChecks (importSucc tt) (importFuel tt)
      (σ (alKeys tt.import_graph)) [] with
  | some p =>
      rcases detect_circular_imports_run_some hrun with ⟨c, hc⟩
      rw [h] at hc
      exact nomatch hc
  | none =>
      have hf : f ∈ alKeys tt.import_graph := by
        rcases (Relation.TransGen.head'_iff).mp hcyc with ⟨w, hw, _⟩
        exact ImportsEdge.src_mem_keys hw
      have hfσ : f ∈ σ (alKeys tt.import_graph) := (hσ _).mem_iff.mpr hf
      have hfresh : freshCount (importUniverse tt) [] < importFuel tt := by
        rw [importFuel_eq]
        exact Nat.lt_succ_of_le (freshCount_nil_le _)
      exact runCycleChecks_none (importSucc tt) (importUniverse tt)
        (importSucc_subset_universe tt) (importFuel tt) (σ (alKeys tt.import_graph)) []
        (fun k hk => List.mem_append.mpr (Or.inl ((hσ _).mem_iff.mp hk)))
        hfresh (DfsInv.empty _) hrun f hfσ hcyc

theorem detect_circular_imports_some_shape {σ : List String → List String}
    (tt : TypeTree) (c : List String)
    (h : detect_circular_imports σ tt = some c) :
    ∃ (t : List String) (d : String),
      c = (d :: t) ++ [d] ∧ List.Chain' (ImportsEdge tt) c := by
  unfold detect_circular_imports at h
  cases hrun : runCycleChecks (importSucc tt) (importFuel tt)
      (σ (alKeys tt.import_graph)) [] with
  | none => rw [hrun] at h; exact nomatch h
  | some p =>
      rw [hrun] at h
      obtain ⟨suffix, d⟩ := p
      obtain ⟨t, rfl, hchain⟩ :=
        runCycleChecks_some (importSucc tt) (importFuel tt)
          (σ (alKeys tt.import_graph)) [] suffix d hrun
      have hcond : ((d :: t) ++ [d]).head? = ((d :: t) ++ [d]).getLast? := by
        rw [List.getLast?_concat]
        simp
      dsimp only at h
      split at h
      · refine ⟨t, d, (Option.some.inj h).symm, ?_⟩
        exact (Option.some.inj h) ▸ hchain
      · rename_i hne
        exact absurd hcond hne

theorem detect_circular_imports_some_of_cycle {σ : List String → List String}
    (hσ : ∀ l, (σ l).Perm l) (tt : TypeTree) {f : String}
    (hcyc : Relation.TransGen (ImportsEdge tt) f f) :
    ∃ c, detect_circular_imports σ tt = some c := by
  cases h : detect_circular_imports σ tt with
  | none => exact absurd hcyc (detect_circular_imports_none_acyclic hσ tt h f)
  | some c => exact ⟨c, rfl⟩

/-! ### Claim C5: Option/Vec wrapper transparency of dependency collection -/

/-- A finite nesting of `Option`/`Vec` wrappers (`true` = `Option`,
`false` = `Vec`) around an inner type. -/
def wrapTy : List Bool → GType → GType
  | [], t => t
  | b :: rest, t =>
      if b then GType.Option (wrapTy rest t) else GType.Vec (wrapTy rest t)

/-- C5: for a schema field type that is a `SchemaRef` under any finite
nesting of `Option`/`Vec`, dependency collection returns exactly the result
of the unwrapped reference (the same resolved qualified name inserted, and
no edge for the wrappers themselves); a primitive under any nesting leaves
the dependency set unchanged. -/
theorem collect_type_dependencies_wrap_transparent
    (w : List Bool) (tt : TypeTree) (prog : Program) (cf : Option String)
    (r : SchemaRef) (p : PrimitiveType) (deps : List String) :
    collect_type_dependencies tt (wrapTy w (.SchemaRef r)) prog cf deps =
      collect_type_dependencies tt (.SchemaRef r) prog cf deps ∧
    collect_type_dependencies tt (wrapTy w (.Primitive p)) prog cf deps =
      .ok deps := by
  induction w with
  | nil => exact ⟨rfl, rfl⟩
  | cons b rest ih =>
      cases b
      · exact ⟨by rw [wrapTy, if_neg (by simp), collect_type_dependencies, ih.1],
               by rw [wrapTy, if_neg (by simp), collect_type_dependencies, ih.2]⟩
      · exact ⟨by rw [wrapTy, if_pos rfl, collect_type_dependencies, ih.1],
               by rw [wrapTy, if_pos rfl, collect_type_dependencies, ih.2]⟩

/-! ### Claim C8: unqualified resolution tries same-package, then root -/

/-- C8: resolving an unqualified `SchemaRef` from a program declaring a
non-root package tries `currentPackage.name` first and the bare name at
root second, returning immediately on the first that exists in `nodes`;
in particular when both exist the same-package candidate is returned. -/
theorem resolve_schema_reference_unqualified_order
    (tt : TypeTree) (r : SchemaRef) (prog : Program) (cf : Option String)
    (hpkg : r.package = none) (hne : pkgNameOf prog ≠ "") :
    ((alLookup tt.nodes (pkgNameOf prog ++ "." ++ r.name)).isSome = true →
      resolve_schema_reference tt r prog cf =
        .ok (pkgNameOf prog ++ "." ++ r.name)) ∧
    ((alLookup tt.nodes (pkgNameOf prog ++ "." ++ r.name)).isSome = false →
      (alLookup tt.nodes r.name).isSome = true →
      resolve_schema_reference tt r prog cf = .ok r.name) := by
  constructor
  · intro hlocal
    unfold resolve_schema_reference
    rw [hpkg]
    dsimp only
    rw [if_pos ⟨hne, hlocal⟩]
  · intro hlocal hroot
    unfold resolve_schema_reference
    rw [hpkg]
    dsimp only
    have hcond : ¬ (pkgNameOf prog ≠ "" ∧
        (alLookup tt.nodes (pkgNameOf prog ++ "." ++ r.name)).isSome = true) := by
      intro hc
      rw [hlocal] at hc
      exact absurd hc.2 (by simp)
    rw [if_neg hcond, if_pos hroot]

/-! ### Claim C10: relative imports resolve by literal concatenation -/

/-- C10: for an importing file with a non-empty parent directory, an import
string starting with `./` or `../` resolves to the literal concatenation
`parentDir ++ "/" ++ importString`, keeping the dot segments verbatim; such
a resolved path therefore equals a registered file key exactly when the key
is that concatenation, character for character. -/
theorem resolve_import_path_relative_verbatim
    (f imp : String)
    (hparent : parentDirOf f ≠ "")
    (hrel : strStartsWith imp "./" = true ∨ strStartsWith imp "../" = true) :
    resolve_import_path f imp = parentDirOf f ++ "/" ++ imp ∧
    ∀ key : String,
      resolve_import_path f imp = key ↔ key = parentDirOf f ++ "/" ++ imp := by
  have hdot : ∃ rest, imp.data = '.' :: rest := by
    rcases hrel with h | h
    · unfold strStartsWith at h
      rcases List.isPrefixOf_iff_prefix.mp h with ⟨t, ht⟩
      exact ⟨'/' :: t, by rw [← ht]; rfl⟩
    · unfold strStartsWith at h
      rcases List.isPrefixOf_iff_prefix.mp h with ⟨t, ht⟩
      exact ⟨'.' :: '/' :: t, by rw [← ht]; rfl⟩
  have hslash : strStartsWith imp "/" = false := by
    rcases hdot with ⟨rest, hr⟩
    unfold strStartsWith
    rw [hr]
    rfl
  have hmain : resolve_import_path f imp = parentDirOf f ++ "/" ++ imp := by
    unfold resolve_import_path
    rw [hslash]
    have hcond : (strStartsWith imp "../" || strStartsWith imp "./") = true := by
      rcases hrel with h | h <;> simp [h]
    rw [if_neg (by simp), if_pos (by simp [hcond]), if_neg hparent]
  exact ⟨hmain, fun key => by rw [hmain]; exact eq_comm⟩

/-- Fixture node for the C8 witness. -/
def c8Node (q : String) : TypeNode := ⟨q, .Enum ⟨"E", []⟩, []⟩

/-- Fixture tree for the C8 witness: both `p.N` and root-level `N` exist. -/
def c8Tree : TypeTree :=
  { TypeTree.new with nodes := [("p.N", c8Node "p.N"), ("N", c8Node "N")] }

/-- Fixture program for the C8 witness: declares package `p`. -/
def c8Prog : Program := ⟨some ⟨⟨["p"]⟩⟩, [], []⟩

/-- Fixture reference for the C8 witness: bare `N`. -/
def c8Ref : SchemaRef := ⟨none, "N"⟩

/-- Witness for C8 at a tree where both candidates exist: the same-package
one wins. -/
theorem resolve_schema_reference_unqualified_order_witness :
    c8Ref.package = none ∧ pkgNameOf c8Prog ≠ "" ∧
    (((alLookup c8Tree.nodes (pkgNameOf c8Prog ++ "." ++ c8Ref.name)).isSome = true →
        resolve_schema_reference c8Tree c8Ref c8Prog none =
          .ok (pkgNameOf c8Prog ++ "." ++ c8Ref.name)) ∧
      ((alLookup c8Tree.nodes (pkgNameOf c8Prog ++ "." ++ c8Ref.name)).isSome = false →
        (alLookup c8Tree.nodes c8Ref.name).isSome = true →
        resolve_schema_reference c8Tree c8Ref c8Prog none = .ok c8Ref.name)) :=
  ⟨rfl, by decide,
   resolve_schema_reference_unqualified_order c8Tree c8Ref c8Prog none rfl (by decide)⟩

/-- Witness for C10 at `a/b.glass` importing `./c.glass`. -/
theorem resolve_import_path_relative_verbatim_witness :
    parentDirOf "a/b.glass" ≠ "" ∧
    (strStartsWith "./c.glass" "./" = true ∨ strStartsWith "./c.glass" "../" = true) ∧
    (resolve_import_path "a/b.glass" "./c.glass" =
        parentDirOf "a/b.glass" ++ "/" ++ "./c.glass" ∧
      ∀ key : String,
        resolve_import_path "a/b.glass" "./c.glass" = key ↔
          key = parentDirOf "a/b.glass" ++ "/" ++ "./c.glass") :=
  ⟨by decide, by decide,
   resolve_import_path_relative_verbatim "a/b.glass" "./c.glass" (by decide)
     (by decide)⟩

/-! ### Claim C4: determinism up to the cycle-error path string -/

/-- Two mutually referencing schemas in one package (the shape of the
source's own `test_circular_dependency_detection`, with unqualified
references). -/
def twoCycleProgram (pkg : Option PackageDecl) (name other : String) : Program :=
  ⟨pkg, [], [.Schema ⟨name, [⟨"r", .SchemaRef ⟨none, other⟩⟩]⟩]⟩

/-- Concrete order-sensitivity batch: `com.example.A ↔ com.example.B`. -/
def c4Batch : List (Program × Option String) :=
  [(twoCycleProgram (some ⟨⟨["com", "example"]⟩⟩) "A" "B", none),
   (twoCycleProgram (some ⟨⟨["com", "example"]⟩⟩) "B" "A", none)]

theorem from_programs_with_paths_eq (σ : List String → List String)
    (batch : List (Program × Option String)) :
    from_programs_with_paths σ batch =
      match buildTree batch with
      | .error e => .error e
      | .ok tt =>
          match validate_no_cycles σ tt with
          | .error e => .error e
          | .ok _ => .ok tt := by
  rfl

/-- C4 counterexample: running `from_programs_with_paths` on the same batch
under two legitimate hash iteration orders (identity and reversal, both
permutations) yields different results — the `CircularDependency` path
string differs — refuting the claim that the error value is identical and
independent of map iteration order. -/
theorem from_programs_with_paths_order_dependent :
    from_programs_with_paths (fun l => l) c4Batch =
      .error (.CircularDependency
        "com.example.A -> com.example.B -> com.example.A") ∧
    from_programs_with_paths (fun l => List.reverse l) c4Batch =
      .error (.CircularDependency
        "com.example.B -> com.example.A -> com.example.B") ∧
    from_programs_with_paths (fun l => l) c4Batch ≠
      from_programs_with_paths (fun l => List.reverse l) c4Batch ∧
    (∀ l : List String, ((fun l => l) l).Perm l) ∧
    (∀ l : List String, (List.reverse l).Perm l) := by
  have h1 : from_programs_with_paths (fun l => l) c4Batch =
      .error (.CircularDependency
        "com.example.A -> com.example.B -> com.example.A") := by rfl
  have h2 : from_programs_with_paths (fun l => List.reverse l) c4Batch =
      .error (.CircularDependency
        "com.example.B -> com.example.A -> com.example.B") := by rfl
  refine ⟨h1, h2, ?_, fun l => List.Perm.refl l, fun l => List.reverse_perm l⟩
  rw [h1, h2]
  intro h
  have hs := TypeTreeError.CircularDependency.inj (Except.error.inj h)
  exact absurd hs (by decide)

/-- C4 (amended): the constructed tree (nodes, dependencies, every field)
and the success/failure outcome of `from_programs_with_paths` are identical
under any two hash iteration orders, and any two error results agree unless
both are `CircularDependency` errors — whose path string alone may depend
on the iteration order. -/
theorem from_programs_with_paths_order_independent
    (σ₁ σ₂ : List String → List String)
    (hσ₁ : ∀ l, (σ₁ l).Perm l) (hσ₂ : ∀ l, (σ₂ l).Perm l)
    (batch : List (Program × Option String)) :
    (∀ t, from_programs_with_paths σ₁ batch = .ok t →
        from_programs_with_paths σ₂ batch = .ok t) ∧
    (from_programs_with_paths σ₁ batch).isOk =
      (from_programs_with_paths σ₂ batch).isOk ∧
    (∀ e₁ e₂, from_programs_with_paths σ₁ batch = .error e₁ →
        from_programs_with_paths σ₂ batch = .error e₂ →
        e₁ = e₂ ∨
          ((∃ p, e₁ = .CircularDependency p) ∧ (∃ p, e₂ = .CircularDependency p))) := by
  rw [from_programs_with_paths_eq σ₁, from_programs_with_paths_eq σ₂]
  cases hb : buildTree batch with
  | error e =>
      dsimp only
      refine ⟨?_, rfl, ?_⟩
      · intro t h; exact nomatch h
      · intro e₁ e₂ h₁ h₂
        rw [← Except.error.inj h₁, ← Except.error.inj h₂]
        exact Or.inl rfl
  | ok tt =>
      dsimp only
      cases hv₁ : validate_no_cycles σ₁ tt with
      | ok u₁ =>
          cases u₁
          cases hv₂ : validate_no_cycles σ₂ tt with
          | ok u₂ =>
              cases u₂
              exact ⟨fun t h => h, rfl, fun e₁ e₂ h₁ _ => (nomatch h₁)⟩
          | error e₂ =>
              exfalso
              obtain ⟨t, d, _, hchain⟩ :=
                validate_no_cycles_error_shape hσ₂ tt e₂ hv₂
              exact validate_no_cycles_ok_acyclic hσ₁ tt hv₁ d
                (chain_cycle_transGen hchain)
      | error e₁ =>
          cases hv₂ : validate_no_cycles σ₂ tt with
          | ok u₂ =>
              exfalso
              obtain ⟨t, d, _, hchain⟩ :=
                validate_no_cycles_error_shape hσ₁ tt e₁ hv₁
              cases u₂
              exact validate_no_cycles_ok_acyclic hσ₂ tt hv₂ d
                (chain_cycle_transGen hchain)
          | error e₂ =>
              refine ⟨fun t h => (nomatch h), rfl, ?_⟩
              intro e₁' e₂' h₁ h₂
              rw [← Except.error.inj h₁, ← Except.error.inj h₂]
              right
              obtain ⟨t₁, d₁, he₁, _⟩ := validate_no_cycles_error_shape hσ₁ tt e₁ hv₁
              obtain ⟨t₂, d₂, he₂, _⟩ := validate_no_cycles_error_shape hσ₂ tt e₂ hv₂
              exact ⟨⟨_, he₁⟩, ⟨_, he₂⟩⟩

/-- Witness for the amended C4 theorem at the concrete two-node cycle batch
and the identity/reversal iteration orders. -/
theorem from_programs_with_paths_order_independent_witness :
    (∀ l : List String, ((fun l => l) l).Perm l) ∧
    (∀ l : List String, (List.reverse l).Perm l) ∧
    ((∀ t, from_programs_with_paths (fun l => l) c4Batch = .ok t →
        from_programs_with_paths (fun l => List.reverse l) c4Batch = .ok t) ∧
      (from_programs_with_paths (fun l => l) c4Batch).isOk =
        (from_programs_with_paths (fun l => List.reverse l) c4Batch).isOk ∧
      (∀ e₁ e₂,
        from_programs_with_paths (fun l => l) c4Batch = .error e₁ →
        from_programs_with_paths (fun l => List.reverse l) c4Batch = .error e₂ →
        e₁ = e₂ ∨
          ((∃ p, e₁ = .CircularDependency p) ∧ (∃ p, e₂ = .CircularDependency p)))) :=
  ⟨fun l => List.Perm.refl l, fun l => List.reverse_perm l,
   from_programs_with_paths_order_independent (fun l => l) (fun l => List.reverse l)
     (fun l => List.Perm.refl l) (fun l => List.reverse_perm l) c4Batch⟩

/-! ### Claim C3: acyclicity on success, cycle errors on two- and three-node cycles -/

theorem exceptPure {ε α : Type} (a : α) : (pure a : Except ε α) = Except.ok a := rfl

/-- The declared package string of a batch's programs. -/
def pkgStrOf (pkg : Option PackageDecl) : String :=
  (pkg.map (fun d => d.path.toStr)).getD ""

/-- A batch of two schemas referencing each other. -/
def twoCycleBatch (pkg : Option PackageDecl) (n1 n2 : String) : List Program :=
  [twoCycleProgram pkg n1 n2, twoCycleProgram pkg n2 n1]

/-- A batch of three schemas in a reference cycle `n1 → n2 → n3 → n1`. -/
def threeCycleBatch (pkg : Option PackageDecl) (n1 n2 n3 : String) : List Program :=
  [twoCycleProgram pkg n1 n2, twoCycleProgram pkg n2 n3, twoCycleProgram pkg n3 n1]

/-- The tree the construction passes build from `twoCycleBatch` before
cycle validation runs. -/
def twoCycleTree (pkg : Option PackageDecl) (n1 n2 : String) : TypeTree :=
  ⟨[(qualify (pkgStrOf pkg) n1,
      ⟨qualify (pkgStrOf pkg) n1,
       .Schema ⟨n1, [⟨"r", .SchemaRef ⟨none, n2⟩⟩]⟩,
       [qualify (pkgStrOf pkg) n2]⟩),
    (qualify (pkgStrOf pkg) n2,
      ⟨qualify (pkgStrOf pkg) n2,
       .Schema ⟨n2, [⟨"r", .SchemaRef ⟨none, n1⟩⟩]⟩,
       [qualify (pkgStrOf pkg) n1]⟩)],
   [],
   [(pkgStrOf pkg, [0, 1])],
   [⟨twoCycleProgram pkg n1 n2, none, some (pkgStrOf pkg)⟩,
    ⟨twoCycleProgram pkg n2 n1, none, some (pkgStrOf pkg)⟩],
   [],
   []⟩

/-- The tree the construction passes build from `threeCycleBatch`. -/
def threeCycleTree (pkg : Option PackageDecl) (n1 n2 n3 : String) : TypeTree :=
  ⟨[(qualify (pkgStrOf pkg) n1,
      ⟨qualify (pkgStrOf pkg) n1,
       .Schema ⟨n1, [⟨"r", .SchemaRef ⟨none, n2⟩⟩]⟩,
       [qualify (pkgStrOf pkg) n2]⟩),
    (qualify (pkgStrOf pkg) n2,
      ⟨qualify (pkgStrOf pkg) n2,
       .Schema ⟨n2, [⟨"r", .SchemaRef ⟨none, n3⟩⟩]⟩,
       [qualify (pkgStrOf pkg) n3]⟩),
    (qualify (pkgStrOf pkg) n3,
      ⟨qualify (pkgStrOf pkg) n3,
       .Schema ⟨n3, [⟨"r", .SchemaRef ⟨none, n1⟩⟩]⟩,
       [qualify (pkgStrOf pkg) n1]⟩)],
   [],
   [(pkgStrOf pkg, [0, 1, 2])],
   [⟨twoCycleProgram pkg n1 n2, none, some (pkgStrOf pkg)⟩,
    ⟨twoCycleProgram pkg n2 n3, none, some (pkgStrOf pkg)⟩,
    ⟨twoCycleProgram pkg n3 n1, none, some (pkgStrOf pkg)⟩],
   [],
   []⟩

theorem buildTree_twoCycleBatch (pkg : Option PackageDecl) (n1 n2 : String)
    (hq : qualify (pkgStrOf pkg) n1 ≠ qualify (pkgStrOf pkg) n2) :
    buildTree ((twoCycleBatch pkg n1 n2).map (fun p => (p, none))) =
      .ok (twoCycleTree pkg n1 n2) := by
  have hpkg : ∀ (i : List ImportStmt) (d : List Definition),
      pkgNameOf ⟨pkg, i, d⟩ = pkgStrOf pkg := fun i d => rfl
  by_cases hP : pkgStrOf pkg = ""
  · have hq' : n1 ≠ n2 := by simpa [qualify, hP] using hq
    simp [buildTree, twoCycleBatch, twoCycleTree, registerProgram,
      TypeTree.new, collect_types_from_program, hpkg,
      build_dependencies_from_program, collect_type_dependencies,
      resolve_schema_reference, alInsert, alLookup, alModify, slInsert, qualify,
      hP, hq', Ne.symm hq', List.find?, List.foldlM_cons, List.foldlM_nil,
      exceptBind_ok, exceptBind_error, exceptPure, twoCycleProgram]
  · have hq' : pkgStrOf pkg ++ "." ++ n1 ≠ pkgStrOf pkg ++ "." ++ n2 := by
      simpa [qualify, hP] using hq
    simp [buildTree, twoCycleBatch, twoCycleTree, registerProgram,
      TypeTree.new, collect_types_from_program, hpkg,
      build_dependencies_from_program, collect_type_dependencies,
      resolve_schema_reference, alInsert, alLookup, alModify, slInsert, qualify,
      hP, hq', Ne.symm hq', List.find?, List.foldlM_cons, List.foldlM_nil,
      exceptBind_ok, exceptBind_error, exceptPure, twoCycleProgram]

theorem buildTree_threeCycleBatch (pkg : Option PackageDecl) (n1 n2 n3 : String)
    (h12 : qualify (pkgStrOf pkg) n1 ≠ qualify (pkgStrOf pkg) n2)
    (h13 : qualify (pkgStrOf pkg) n1 ≠ qualify (pkgStrOf pkg) n3)
    (h23 : qualify (pkgStrOf pkg) n2 ≠ qualify (pkgStrOf pkg) n3) :
    buildTree ((threeCycleBatch pkg n1 n2 n3).map (fun p => (p, none))) =
      .ok (threeCycleTree pkg n1 n2 n3) := by
  have hpkg : ∀ (i : List ImportStmt) (d : List Definition),
      pkgNameOf ⟨pkg, i, d⟩ = pkgStrOf pkg := fun i d => rfl
  by_cases hP : pkgStrOf pkg = ""
  · have h12' : n1 ≠ n2 := by simpa [qualify, hP] using h12
    have h13' : n1 ≠ n3 := by simpa [qualify, hP] using h13
    have h23' : n2 ≠ n3 := by simpa [qualify, hP] using h23
    simp [buildTree, threeCycleBatch, threeCycleTree, registerProgram,
      TypeTree.new, collect_types_from_program, hpkg,
      build_dependencies_from_program, collect_type_dependencies,
      resolve_schema_reference, alInsert, alLookup, alModify, slInsert, qualify,
      hP, h12', h13', h23', Ne.symm h12', Ne.symm h13', Ne.symm h23',
      List.find?, List.foldlM_cons, List.foldlM_nil,
      exceptBind_ok, exceptBind_error, exceptPure, twoCycleProgram]
  · have h12' : pkgStrOf pkg ++ "." ++ n1 ≠ pkgStrOf pkg ++ "." ++ n2 := by
      simpa [qualify, hP] using h12
    have h13' : pkgStrOf pkg ++ "." ++ n1 ≠ pkgStrOf pkg ++ "." ++ n3 := by
      simpa [qualify, hP] using h13
    have h23' : pkgStrOf pkg ++ "." ++ n2 ≠ pkgStrOf pkg ++ "." ++ n3 := by
      simpa [qualify, hP] using h23
    simp [buildTree, threeCycleBatch, threeCycleTree, registerProgram,
      TypeTree.new, collect_types_from_program, hpkg,
      build_dependencies_from_program, collect_type_dependencies,
      resolve_schema_reference, alInsert, alLookup, alModify, slInsert, qualify,
      hP, h12', h13', h23', Ne.symm h12', Ne.symm h13', Ne.symm h23',
      List.find?, List.foldlM_cons, List.foldlM_nil,
      exceptBind_ok, exceptBind_error, exceptPure, twoCycleProgram]

/-- Dependency-edge characterization of the two-node cycle tree. -/
theorem twoCycleTree_depends (pkg : Option PackageDecl) (n1 n2 : String)
    (hq : qualify (pkgStrOf pkg) n1 ≠ qualify (pkgStrOf pkg) n2) (x y : String) :
    DependsOn (twoCycleTree pkg n1 n2) x y ↔
      ((x = qualify (pkgStrOf pkg) n1 ∧ y = qualify (pkgStrOf pkg) n2) ∨
        (x = qualify (pkgStrOf pkg) n2 ∧ y = qualify (pkgStrOf pkg) n1)) := by
  unfold DependsOn depsOf twoCycleTree
  by_cases hx1 : qualify (pkgStrOf pkg) n1 = x
  · simp [alLookup, ← hx1, hq, Ne.symm hq]
  · by_cases hx2 : qualify (pkgStrOf pkg) n2 = x
    · simp [alLookup, hx1, ← hx2, hq, Ne.symm hq]
    · simp only [alLookup, if_neg hx1, if_neg hx2, Option.map_none', Option.getD_none,
        List.not_mem_nil, false_iff]
      rintro ((⟨h, _⟩ | ⟨h, _⟩))
      · exact hx1 h.symm
      · exact hx2 h.symm

/-- Dependency-edge characterization of the three-node cycle tree. -/
theorem threeCycleTree_depends (pkg : Option PackageDecl) (n1 n2 n3 : String)
    (h12 : qualify (pkgStrOf pkg) n1 ≠ qualify (pkgStrOf pkg) n2)
    (h13 : qualify (pkgStrOf pkg) n1 ≠ qualify (pkgStrOf pkg) n3)
    (h23 : qualify (pkgStrOf pkg) n2 ≠ qualify (pkgStrOf pkg) n3) (x y : String) :
    DependsOn (threeCycleTree pkg n1 n2 n3) x y ↔
      ((x = qualify (pkgStrOf pkg) n1 ∧ y = qualify (pkgStrOf pkg) n2) ∨
        (x = qualify (pkgStrOf pkg) n2 ∧ y = qualify (pkgStrOf pkg) n3) ∨
        (x = qualify (pkgStrOf pkg) n3 ∧ y = qualify (pkgStrOf pkg) n1)) := by
  unfold DependsOn depsOf threeCycleTree
  by_cases hx1 : qualify (pkgStrOf pkg) n1 = x
  · simp [alLookup, ← hx1, h12, h13, Ne.symm h12, Ne.symm h13]
  · by_cases hx2 : qualify (pkgStrOf pkg) n2 = x
    · simp [alLookup, hx1, ← hx2, h12, h23, Ne.symm h12, Ne.symm h23]
    · by_cases hx3 : qualify (pkgStrOf pkg) n3 = x
      · simp [alLookup, hx1, hx2, ← hx3, h13, h23, Ne.symm h13, Ne.symm h23]
      · simp only [alLookup, if_neg hx1, if_neg hx2, if_neg hx3, Option.map_none',
          Option.getD_none, List.not_mem_nil, false_iff]
        rintro ((⟨h, _⟩ | ⟨h, _⟩ | ⟨h, _⟩))
        · exact hx1 h.symm
        · exact hx2 h.symm
        · exact hx3 h.symm

/-- C3: whenever tree construction succeeds, no type is in the transitive
closure of its own dependencies; and every batch of two (resp. three)
schemas in one package whose fields form a mutual reference cycle fails
construction with a `CircularDependency` whose arrow-joined path contains
every implicated qualified name — for every hash iteration order `σ`. -/
theorem from_programs_cycle_detection
    (σ : List String → List String) (hσ : ∀ l, (σ l).Perm l)
    (pkg : Option PackageDecl) (n1 n2 n3 : String)
    (h12 : qualify (pkgStrOf pkg) n1 ≠ qualify (pkgStrOf pkg) n2)
    (h13 : qualify (pkgStrOf pkg) n1 ≠ qualify (pkgStrOf pkg) n3)
    (h23 : qualify (pkgStrOf pkg) n2 ≠ qualify (pkgStrOf pkg) n3) :
    (∀ (batch : List (Program × Option String)) (t : TypeTree),
        from_programs_with_paths σ batch = .ok t →
        ∀ u, ¬ Relation.TransGen (DependsOn t) u u) ∧
    (∃ (t : List String) (d : String),
        from_programs σ (twoCycleBatch pkg n1 n2) =
          .error (.CircularDependency
            (String.intercalate " -> " (d :: t) ++ " -> " ++ d)) ∧
        qualify (pkgStrOf pkg) n1 ∈ d :: t ∧ qualify (pkgStrOf pkg) n2 ∈ d :: t) ∧
    (∃ (t : List String) (d : String),
        from_programs σ (threeCycleBatch pkg n1 n2 n3) =
          .error (.CircularDependency
            (String.intercalate " -> " (d :: t) ++ " -> " ++ d)) ∧
        qualify (pkgStrOf pkg) n1 ∈ d :: t ∧ qualify (pkgStrOf pkg) n2 ∈ d :: t ∧
        qualify (pkgStrOf pkg) n3 ∈ d :: t) := by
  refine ⟨?_, ?_, ?_⟩
  · intro batch t h u
    rw [from_programs_with_paths_eq] at h
    cases hb : buildTree batch with
    | error e => rw [hb] at h; exact (nomatch h)
    | ok tt =>
        rw [hb] at h
        dsimp only at h
        cases hv : validate_no_cycles σ tt with
        | error e => rw [hv] at h; exact (nomatch h)
        | ok u0 =>
            cases u0
            rw [hv] at h
            dsimp only at h
            have htt : tt = t := Except.ok.inj h
            subst htt
            exact validate_no_cycles_ok_acyclic hσ tt hv u
  · have hbuild := buildTree_twoCycleBatch pkg n1 n2 h12
    have hdep := twoCycleTree_depends pkg n1 n2 h12
    have hcyc : Relation.TransGen (DependsOn (twoCycleTree pkg n1 n2))
        (qualify (pkgStrOf pkg) n1) (qualify (pkgStrOf pkg) n1) :=
      Relation.TransGen.head ((hdep _ _).mpr (Or.inl ⟨rfl, rfl⟩))
        (Relation.TransGen.single ((hdep _ _).mpr (Or.inr ⟨rfl, rfl⟩)))
    cases hv : validate_no_cycles σ (twoCycleTree pkg n1 n2) with
    | ok u0 =>
        cases u0
        exact absurd hcyc (validate_no_cycles_ok_acyclic hσ _ hv _)
    | error e =>
        obtain ⟨t, d, he, hchain⟩ := validate_no_cycles_error_shape hσ _ e hv
        have hfp : from_programs σ (twoCycleBatch pkg n1 n2) =
            .error (.CircularDependency
              (String.intercalate " -> " (d :: t) ++ " -> " ++ d)) := by
          unfold from_programs
          rw [from_programs_with_paths_eq, hbuild]
          dsimp only
          rw [hv]
          dsimp only
          rw [he]
        refine ⟨t, d, hfp, ?_⟩
        obtain ⟨hc1, hc2, hrel⟩ := List.chain'_append.mp hchain
        have hne : d :: t ≠ [] := by simp
        have hLrel : DependsOn (twoCycleTree pkg n1 n2) ((d :: t).getLast hne) d := by
          apply hrel
          · exact Option.mem_def.mpr (List.getLast?_eq_getLast_of_ne_nil hne)
          · exact Option.mem_def.mpr rfl
        have hLmem : (d :: t).getLast hne ∈ d :: t := List.getLast_mem hne
        rcases (hdep _ _).mp hLrel with ⟨hL, hd⟩ | ⟨hL, hd⟩
        · exact ⟨hL ▸ hLmem, hd ▸ List.mem_cons_self _ _⟩
        · exact ⟨hd ▸ List.mem_cons_self _ _, hL ▸ hLmem⟩
  · have hbuild := buildTree_threeCycleBatch pkg n1 n2 n3 h12 h13 h23
    have hdep := threeCycleTree_depends pkg n1 n2 n3 h12 h13 h23
    have hcyc : Relation.TransGen (DependsOn (threeCycleTree pkg n1 n2 n3))
        (qualify (pkgStrOf pkg) n1) (qualify (pkgStrOf pkg) n1) :=
      Relation.TransGen.head ((hdep _ _).mpr (Or.inl ⟨rfl, rfl⟩))
        (Relation.TransGen.head ((hdep _ _).mpr (Or.inr (Or.inl ⟨rfl, rfl⟩)))
          (Relation.TransGen.single ((hdep _ _).mpr (Or.inr (Or.inr ⟨rfl, rfl⟩)))))
    cases hv : validate_no_cycles σ (threeCycleTree pkg n1 n2 n3) with
    | ok u0 =>
        cases u0
        exact absurd hcyc (validate_no_cycles_ok_acyclic hσ _ hv _)
    | error e =>
        obtain ⟨t, d, he, hchain⟩ := validate_no_cycles_error_shape hσ _ e hv
        have hfp : from_programs σ (threeCycleBatch pkg n1 n2 n3) =
            .error (.CircularDependency
              (String.intercalate " -> " (d :: t) ++ " -> " ++ d)) := by
          unfold from_programs
          rw [from_programs_with_paths_eq, hbuild]
          dsimp only
          rw [hv]
          dsimp only
          rw [he]
        refine ⟨t, d, hfp, ?_⟩
        obtain ⟨hc1, hc2, hrel⟩ := List.chain'_append.mp hchain
        have hne : d :: t ≠ [] := by simp
        have hLrel : DependsOn (threeCycleTree pkg n1 n2 n3) ((d :: t).getLast hne) d := by
          apply hrel
          · exact Option.mem_def.mpr (List.getLast?_eq_getLast_of_ne_nil hne)
          · exact Option.mem_def.mpr rfl
        have hLmem : (d :: t).getLast hne ∈ d :: t := List.getLast_mem hne
        cases t with
        | nil =>
            exfalso
            have hdd : DependsOn (threeCycleTree pkg n1 n2 n3) d d := by
              have h2 : List.Chain' (DependsOn (threeCycleTree pkg n1 n2 n3)) [d, d] := by
                simpa using hchain
              exact (List.chain'_cons.mp h2).1
            rcases (hdep _ _).mp hdd with ⟨p, q⟩ | ⟨p, q⟩ | ⟨p, q⟩
            · exact h12 (p.symm.trans q)
            · exact h23 (p.symm.trans q)
            · exact h13 (q.symm.trans p)
        | cons y t' =>
            have hdy : DependsOn (threeCycleTree pkg n1 n2 n3) d y := by
              have h2 : List.Chain' (DependsOn (threeCycleTree pkg n1 n2 n3))
                  (d :: y :: (t' ++ [d])) := by
                simpa using hchain
              exact (List.chain'_cons.mp h2).1
            have hymem : y ∈ d :: y :: t' := List.mem_cons_of_mem _ (List.mem_cons_self _ _)
            rcases (hdep _ _).mp hLrel with ⟨hL, hd⟩ | ⟨hL, hd⟩ | ⟨hL, hd⟩
            · -- last = Q1, d = Q2; the first chain step gives y = Q3
              rcases (hdep _ _).mp hdy with ⟨p, q⟩ | ⟨p, q⟩ | ⟨p, q⟩
              · exact absurd (p.symm.trans hd) h12
              · exact ⟨hL ▸ hLmem, hd ▸ List.mem_cons_self _ _, q ▸ hymem⟩
              · exact absurd (p.symm.trans hd) (Ne.symm h23)
            · -- last = Q2, d = Q3; the first chain step gives y = Q1
              rcases (hdep _ _).mp hdy with ⟨p, q⟩ | ⟨p, q⟩ | ⟨p, q⟩
              · exact absurd (p.symm.trans hd) h13
              · exact absurd (p.symm.trans hd) h23
              · exact ⟨q ▸ hymem, hL ▸ hLmem, hd ▸ List.mem_cons_self _ _⟩
            · -- last = Q3, d = Q1; the first chain step gives y = Q2
              rcases (hdep _ _).mp hdy with ⟨p, q⟩ | ⟨p, q⟩ | ⟨p, q⟩
              · exact ⟨hd ▸ List.mem_cons_self _ _, q ▸ hymem, hL ▸ hLmem⟩
              · exact absurd (p.symm.trans hd) (Ne.symm h12)
              · exact absurd (p.symm.trans hd) (Ne.symm h13)


/-- Witness for C3 at package `com.example`, schema names `A`, `B`, `C`,
and the identity iteration order. -/
theorem from_programs_cycle_detection_witness :
    (∀ l : List String, ((fun l => l) l).Perm l) ∧
    qualify (pkgStrOf (some ⟨⟨["com", "example"]⟩⟩)) "A" ≠
      qualify (pkgStrOf (some ⟨⟨["com", "example"]⟩⟩)) "B" ∧
    ((∀ (batch : List (Program × Option String)) (t : TypeTree),
        from_programs_with_paths (fun l => l) batch = .ok t →
        ∀ u, ¬ Relation.TransGen (DependsOn t) u u) ∧
      (∃ (t : List String) (d : String),
        from_programs (fun l => l)
            (twoCycleBatch (some ⟨⟨["com", "example"]⟩⟩) "A" "B") =
          .error (.CircularDependency
            (String.intercalate " -> " (d :: t) ++ " -> " ++ d)) ∧
        qualify (pkgStrOf (some ⟨⟨["com", "example"]⟩⟩)) "A" ∈ d :: t ∧
        qualify (pkgStrOf (some ⟨⟨["com", "example"]⟩⟩)) "B" ∈ d :: t) ∧
      (∃ (t : List String) (d : String),
        from_programs (fun l => l)
            (threeCycleBatch (some ⟨⟨["com", "example"]⟩⟩) "A" "B" "C") =
          .error (.CircularDependency
            (String.intercalate " -> " (d :: t) ++ " -> " ++ d)) ∧
        qualify (pkgStrOf (some ⟨⟨["com", "example"]⟩⟩)) "A" ∈ d :: t ∧
        qualify (pkgStrOf (some ⟨⟨["com", "example"]⟩⟩)) "B" ∈ d :: t ∧
        qualify (pkgStrOf (some ⟨⟨["com", "example"]⟩⟩)) "C" ∈ d :: t)) :=
  ⟨fun l => List.Perm.refl l, by decide,
   from_programs_cycle_detection (fun l => l) (fun l => List.Perm.refl l)
     (some ⟨⟨["com", "example"]⟩⟩) "A" "B" "C" (by decide) (by decide) (by decide)⟩

/-! ### Claim C1: duplicate qualified names — the later definition silently
wins; no duplicate-type error exists in the code -/

/-- Schema fields carrying only primitive types. -/
def primFields (fs : List (String × PrimitiveType)) : List SchemaField :=
  fs.map (fun p => ⟨p.1, .Primitive p.2⟩)

/-- A program declaring one schema with primitive-only fields. -/
def primSchemaProgram (pkg : Option PackageDecl) (name : String)
    (fs : List (String × PrimitiveType)) : Program :=
  ⟨pkg, [], [.Schema ⟨name, primFields fs⟩]⟩

/-- Two programs declaring the same package and the same schema name. -/
def dupBatch (pkg : Option PackageDecl) (name : String)
    (f1 f2 : List (String × PrimitiveType)) : List Program :=
  [primSchemaProgram pkg name f1, primSchemaProgram pkg name f2]

/-- The tree `from_programs` produces from `dupBatch`: a single node under
the shared qualified name, holding the *second* program's definition. -/
def dupTree (pkg : Option PackageDecl) (name : String)
    (f1 f2 : List (String × PrimitiveType)) : TypeTree :=
  ⟨[(qualify (pkgStrOf pkg) name,
     ⟨qualify (pkgStrOf pkg) name, .Schema ⟨name, primFields f2⟩, []⟩)],
   [],
   [(pkgStrOf pkg, [0, 1])],
   [⟨primSchemaProgram pkg name f1, none, some (pkgStrOf pkg)⟩,
    ⟨primSchemaProgram pkg name f2, none, some (pkgStrOf pkg)⟩],
   [],
   []⟩

theorem primFields_foldlM (tt : TypeTree) (prog : Program)
    (fs : List (String × PrimitiveType)) (deps : List String) :
    (primFields fs).foldlM
      (fun d field => collect_type_dependencies tt field.field_type prog none d)
      deps = Except.ok deps := by
  induction fs generalizing deps with
  | nil => rfl
  | cons p fs ih =>
      rw [primFields, List.map_cons]
      rw [List.foldlM_cons]
      rw [show collect_type_dependencies tt
        (SchemaField.mk p.1 (.Primitive p.2)).field_type prog none deps =
          Except.ok deps from rfl]
      rw [exceptBind_ok]
      exact ih deps

theorem buildTree_dupBatch (pkg : Option PackageDecl) (name : String)
    (f1 f2 : List (String × PrimitiveType)) :
    buildTree ((dupBatch pkg name f1 f2).map (fun p => (p, none))) =
      .ok (dupTree pkg name f1 f2) := by
  have hpkg : ∀ (i : List ImportStmt) (d : List Definition),
      pkgNameOf ⟨pkg, i, d⟩ = pkgStrOf pkg := fun i d => rfl
  simp [buildTree, dupBatch, dupTree, primSchemaProgram, registerProgram,
    TypeTree.new, collect_types_from_program, hpkg,
    build_dependencies_from_program, primFields_foldlM, alInsert, alLookup,
    alModify, List.find?, List.foldlM_cons, List.foldlM_nil,
    exceptBind_ok, exceptBind_error, exceptPure]

/-- C1 (amended): for every batch in which two ingested programs produce
the same qualified name, construction *succeeds*, and the `nodes` map holds
the later program's definition — the earlier one is silently overwritten
(there is no duplicate-type error variant in `TypeTreeError` at all).
Proved for every hash iteration order `σ`. -/
theorem from_programs_duplicate_overwrites (σ : List String → List String)
    (hσ : ∀ l, (σ l).Perm l) (pkg : Option PackageDecl) (name : String)
    (f1 f2 : List (String × PrimitiveType)) :
    from_programs σ (dupBatch pkg name f1 f2) = .ok (dupTree pkg name f1 f2) ∧
    alLookup (dupTree pkg name f1 f2).nodes (qualify (pkgStrOf pkg) name) =
      some ⟨qualify (pkgStrOf pkg) name, .Schema ⟨name, primFields f2⟩, []⟩ := by
  have hσnil : σ [] = [] := List.perm_nil.mp (hσ [])
  have hσQ : σ [qualify (pkgStrOf pkg) name] = [qualify (pkgStrOf pkg) name] :=
    List.perm_singleton.mp (hσ _)
  have hsucc : typeSucc σ (dupTree pkg name f1 f2) (qualify (pkgStrOf pkg) name) = [] := by
    simp [typeSucc, dupTree, alLookup, hσnil]
  have hrun : ∀ fuel,
      runCycleChecks (typeSucc σ (dupTree pkg name f1 f2)) (fuel + 1)
        [qualify (pkgStrOf pkg) name] [] = none := by
    intro fuel
    rw [runCycleChecks, if_neg (by simp), cycleDfs_succ_eq, hsucc]
    rw [List.foldlM_nil]
    rw [show (pure (slInsert [] (qualify (pkgStrOf pkg) name)) :
      Except (List String × String) (List String)) = Except.ok _ from rfl]
    rfl
  have hv : validate_no_cycles σ (dupTree pkg name f1 f2) = .ok () := by
    unfold validate_no_cycles typeFuel
    rw [show σ (alKeys (dupTree pkg name f1 f2).nodes) =
      [qualify (pkgStrOf pkg) name] from by simpa [dupTree, alKeys] using hσQ]
    rw [hrun]
  constructor
  · unfold from_programs
    rw [from_programs_with_paths_eq, buildTree_dupBatch]
    dsimp only
    rw [hv]
  · simp [dupTree, alLookup]

/-- C1 counterexample: a concrete batch where two programs both declare
schema `S` in package `p` — the claim demands a duplicate-type failure,
but construction returns `Ok`, and the node at `p.S` holds the second
program's (field-less) definition. -/
theorem from_programs_duplicate_no_error :
    from_programs (fun l => l)
        (dupBatch (some ⟨⟨["p"]⟩⟩) "S" [("a", .String)] []) =
      .ok (dupTree (some ⟨⟨["p"]⟩⟩) "S" [("a", .String)] []) ∧
    (from_programs (fun l => l)
        (dupBatch (some ⟨⟨["p"]⟩⟩) "S" [("a", .String)] [])).isOk = true ∧
    alLookup (dupTree (some ⟨⟨["p"]⟩⟩) "S" [("a", .String)] []).nodes "p.S" =
      some ⟨"p.S", .Schema ⟨"S", []⟩, []⟩ := by
  have h1 : from_programs (fun l => l)
      (dupBatch (some ⟨⟨["p"]⟩⟩) "S" [("a", .String)] []) =
      .ok (dupTree (some ⟨⟨["p"]⟩⟩) "S" [("a", .String)] []) := by rfl
  refine ⟨h1, by rw [h1]; rfl, by rfl⟩

/-- Witness for the amended C1 theorem at package `p`, schema `S`, and the
identity iteration order. -/
theorem from_programs_duplicate_overwrites_witness :
    (∀ l : List String, ((fun l => l) l).Perm l) ∧
    (from_programs (fun l => l) (dupBatch (some ⟨⟨["p"]⟩⟩) "S" [("a", .String)] [("b", .Bool)]) =
        .ok (dupTree (some ⟨⟨["p"]⟩⟩) "S" [("a", .String)] [("b", .Bool)]) ∧
      alLookup (dupTree (some ⟨⟨["p"]⟩⟩) "S" [("a", .String)] [("b", .Bool)]).nodes
          (qualify (pkgStrOf (some ⟨⟨["p"]⟩⟩)) "S") =
        some ⟨qualify (pkgStrOf (some ⟨⟨["p"]⟩⟩)) "S",
              .Schema ⟨"S", primFields [("b", .Bool)]⟩, []⟩) :=
  ⟨fun l => List.Perm.refl l,
   from_programs_duplicate_overwrites (fun l => l) (fun l => List.Perm.refl l)
     (some ⟨⟨["p"]⟩⟩) "S" [("a", .String)] [("b", .Bool)]⟩

/-! ### Claim C2: ambiguous unqualified references — the first import-order
match is returned silently; no `AmbiguousTypeReference` error exists -/

/-- The spec's ambiguity scenario: `P1` and `P2` both declare `Foo`; a
third file imports both and references bare `Foo`. -/
def c2Programs : List (Program × Option String) :=
  [(⟨some ⟨⟨["P1"]⟩⟩, [], [.Schema ⟨"Foo", []⟩]⟩, some "p1.glass"),
   (⟨some ⟨⟨["P2"]⟩⟩, [], [.Schema ⟨"Foo", []⟩]⟩, some "p2.glass"),
   (⟨some ⟨⟨["P3"]⟩⟩, [⟨"p1.glass"⟩, ⟨"p2.glass"⟩],
     [.Schema ⟨"Bar", [⟨"foo", .SchemaRef ⟨none, "Foo"⟩⟩]⟩]⟩, some "main.glass")]

/-- C2 counterexample: on the spec's own ambiguity scenario the claim
demands an `AmbiguousTypeReference` failure — but construction succeeds
and `P3.Bar` silently depends on `P1.Foo`, the first match in the
order of the import statements.  (No `AmbiguousTypeReference` variant exists in
`TypeTreeError`.) -/
theorem from_programs_with_paths_ambiguous_silently_resolves :
    (from_programs_with_paths (fun l => l) c2Programs).isOk = true ∧
    (from_programs_with_paths (fun l => l) c2Programs).toOption.map
      (fun t => depsOf t "P3.Bar") = some ["P1.Foo"] :=
  ⟨rfl, rfl⟩

/-- C2 (amended): when an unqualified reference matches neither the current
package nor the root package and *both* of two distinct imported packages
offer a matching qualified name, `resolve_schema_reference` does not fail:
it returns the first match in import order. -/
theorem resolve_schema_reference_first_import_match
    (tt : TypeTree) (r : SchemaRef) (prog : Program) (f f1 f2 p1 p2 : String)
    (hpkg : r.package = none)
    (hlocal : ¬(pkgNameOf prog ≠ "" ∧
        (alLookup tt.nodes (pkgNameOf prog ++ "." ++ r.name)).isSome = true))
    (hroot : (alLookup tt.nodes r.name).isSome = false)
    (himp : alLookup tt.import_graph f = some [f1, f2])
    (hp1 : alLookup tt.file_to_package f1 = some p1)
    (hp2 : alLookup tt.file_to_package f2 = some p2)
    (h1 : (alLookup tt.nodes (p1 ++ "." ++ r.name)).isSome = true)
    (h2 : (alLookup tt.nodes (p2 ++ "." ++ r.name)).isSome = true) :
    resolve_schema_reference tt r prog (some f) = .ok (p1 ++ "." ++ r.name) := by
  unfold resolve_schema_reference
  rw [hpkg]
  dsimp only
  rw [if_neg hlocal, if_neg (by simp [hroot])]
  rw [himp]
  simp only [Option.getD_some, List.filterMap_cons, hp1, hp2, Option.map_some',
    List.filterMap_nil]
  rw [List.find?]
  simp only [h1]

/-- Fixture tree for the C2 witness: the resolver state after ingesting
`c2Programs`, restricted to the fields resolution reads. -/
def c2Tree : TypeTree :=
  { TypeTree.new with
    nodes := [("P1.Foo", ⟨"P1.Foo", .Schema ⟨"Foo", []⟩, []⟩),
              ("P2.Foo", ⟨"P2.Foo", .Schema ⟨"Foo", []⟩, []⟩)],
    file_to_package := [("p1.glass", "P1"), ("p2.glass", "P2"), ("main.glass", "P3")],
    import_graph := [("main.glass", ["p1.glass", "p2.glass"])] }

/-- Witness for the amended C2 theorem at the concrete ambiguity fixture. -/
theorem resolve_schema_reference_first_import_match_witness :
    (SchemaRef.mk none "Foo").package = none ∧
    ¬(pkgNameOf ⟨some ⟨⟨["P3"]⟩⟩, [⟨"p1.glass"⟩, ⟨"p2.glass"⟩], []⟩ ≠ "" ∧
        (alLookup c2Tree.nodes
          (pkgNameOf ⟨some ⟨⟨["P3"]⟩⟩, [⟨"p1.glass"⟩, ⟨"p2.glass"⟩], []⟩ ++ "." ++
            (SchemaRef.mk none "Foo").name)).isSome = true) ∧
    (alLookup c2Tree.nodes (SchemaRef.mk none "Foo").name).isSome = false ∧
    resolve_schema_reference c2Tree (SchemaRef.mk none "Foo")
        ⟨some ⟨⟨["P3"]⟩⟩, [⟨"p1.glass"⟩, ⟨"p2.glass"⟩], []⟩ (some "main.glass") =
      .ok ("P1" ++ "." ++ (SchemaRef.mk none "Foo").name) :=
  ⟨rfl, by decide, by decide,
   resolve_schema_reference_first_import_match c2Tree (SchemaRef.mk none "Foo")
     ⟨some ⟨⟨["P3"]⟩⟩, [⟨"p1.glass"⟩, ⟨"p2.glass"⟩], []⟩
     "main.glass" "p1.glass" "p2.glass" "P1" "P2"
     rfl (by decide) (by decide) (by decide) (by decide) (by decide)
     (by decide) (by decide)⟩

/-! ### Claim C9: reported import cycles consist only of ingested files -/

/-- C9: any cycle reported by import-cycle detection is a genuine cycle of
the import graph whose files are all registered in `file_to_package`
(given the structural fact, true of every constructed tree, that
every import-graph key is a registered file): an import edge whose target is not
an ingested file can neither cause nor appear in a reported
`CircularImport`. -/
theorem import_cycle_only_known_files (σ : List String → List String)
    (tt : TypeTree)
    (hkeys : ∀ f, f ∈ alKeys tt.import_graph → f ∈ alKeys tt.file_to_package)
    (c : List String) (h : detect_circular_imports σ tt = some c) :
    (∀ x ∈ c, x ∈ alKeys tt.file_to_package) ∧
    List.Chain' (ImportsEdge tt) c ∧ c ≠ [] := by
  obtain ⟨t, d, rfl, hchain⟩ := detect_circular_imports_some_shape tt c h
  refine ⟨?_, hchain, by simp⟩
  intro x hx
  have hx' : x ∈ d :: t := by
    rcases List.mem_append.mp hx with hx | hx
    · exact hx
    · simp only [List.mem_singleton] at hx
      subst hx
      exact List.mem_cons_self _ _
  obtain ⟨y, hy⟩ := chain'_append_singleton_mem (d :: t) d x hchain hx'
  exact hkeys x (ImportsEdge.src_mem_keys hy)

/-- Fixture: a two-file import cycle, for the C9 and C6 witnesses. -/
def impCycleTree : TypeTree :=
  { TypeTree.new with
    file_to_package := [("a.glass", "pa"), ("b.glass", "pb")],
    import_graph := [("a.glass", ["b.glass"]), ("b.glass", ["a.glass"])] }

/-- Witness for C9 at the two-file cycle fixture. -/
theorem import_cycle_only_known_files_witness :
    (∀ f, f ∈ alKeys impCycleTree.import_graph →
        f ∈ alKeys impCycleTree.file_to_package) ∧
    detect_circular_imports (fun l => l) impCycleTree =
      some ["a.glass", "b.glass", "a.glass"] ∧
    ((∀ x ∈ ["a.glass", "b.glass", "a.glass"],
        x ∈ alKeys impCycleTree.file_to_package) ∧
      List.Chain' (ImportsEdge impCycleTree) ["a.glass", "b.glass", "a.glass"] ∧
      ["a.glass", "b.glass", "a.glass"] ≠ ([] : List String)) :=
  ⟨by decide, rfl,
   import_cycle_only_known_files (fun l => l) impCycleTree (by decide)
     ["a.glass", "b.glass", "a.glass"] rfl⟩

/-! ### Claim C6: an import cycle short-circuits validation -/

/-- C6: whenever the import graph has a cycle among ingested files,
`validate_imports` returns exactly one error — a `CircularImport` — and no
`FileNotFound` diagnostics; the reported path is a genuine import cycle,
completed so that its first element equals its last. -/
theorem validate_imports_cycle_short_circuit (σ : List String → List String)
    (hσ : ∀ l, (σ l).Perm l) (tt : TypeTree) (f : String)
    (hcyc : Relation.TransGen (ImportsEdge tt) f f) :
    ∃ c, validate_imports σ tt = .error [.CircularImport c] ∧
      c ≠ [] ∧ c.head? = c.getLast? ∧ List.Chain' (ImportsEdge tt) c := by
  obtain ⟨c, hc⟩ := detect_circular_imports_some_of_cycle hσ tt hcyc
  obtain ⟨t, d, hceq, hchain⟩ := detect_circular_imports_some_shape tt c hc
  refine ⟨c, ?_, ?_, ?_, hchain⟩
  · unfold validate_imports
    rw [hc]
  · rw [hceq]; simp
  · rw [hceq]
    rw [List.getLast?_concat]
    simp

/-- Witness for C6 at the two-file cycle fixture. -/
theorem validate_imports_cycle_short_circuit_witness :
    (∀ l : List String, ((fun l => l) l).Perm l) ∧
    Relation.TransGen (ImportsEdge impCycleTree) "a.glass" "a.glass" ∧
    (∃ c, validate_imports (fun l => l) impCycleTree =
        .error [.CircularImport c] ∧
      c ≠ [] ∧ c.head? = c.getLast? ∧ List.Chain' (ImportsEdge impCycleTree) c) := by
  have e1 : ImportsEdge impCycleTree "a.glass" "b.glass" := by
    unfold ImportsEdge importSucc
    decide
  have e2 : ImportsEdge impCycleTree "b.glass" "a.glass" := by
    unfold ImportsEdge importSucc
    decide
  exact ⟨fun l => List.Perm.refl l,
    Relation.TransGen.head e1 (Relation.TransGen.single e2),
    validate_imports_cycle_short_circuit (fun l => l) (fun l => List.Perm.refl l)
      impCycleTree "a.glass"
      (Relation.TransGen.head e1 (Relation.TransGen.single e2))⟩
/-! ### Claim C7: `FileNotFound` cites the original import string -/

/-- Ingest a batch of programs through the public `add_program_with_path`
entry point (each program paired with its file path), starting from the
empty tree. -/
def ingestAll (batch : List (Program × String)) : TypeTree :=
  batch.foldl (fun t pf => add_program_with_path t pf.1 pf.2) TypeTree.new

theorem alLookup_alInsert_self {α : Type} (m : List (String × α)) (k : String) (v : α) :
    alLookup (alInsert m k v) k = some v := by
  induction m with
  | nil => simp [alInsert, alLookup]
  | cons p rest ih =>
      obtain ⟨k', v'⟩ := p
      by_cases h : k' = k
      · simp [alInsert, alLookup, h]
      · simp [alInsert, alLookup, h, ih]

theorem alLookup_alInsert_ne {α : Type} (m : List (String × α)) {k k' : String}
    (h : k ≠ k') (v : α) :
    alLookup (alInsert m k v) k' = alLookup m k' := by
  induction m with
  | nil => simp [alInsert, alLookup, h]
  | cons p rest ih =>
      obtain ⟨k₁, v₁⟩ := p
      by_cases h1 : k₁ = k
      · subst h1
        simp [alInsert, alLookup, h]
      · simp only [alInsert, if_neg h1]
        by_cases h2 : k₁ = k'
        · simp [alLookup, h2]
        · simp [alLookup, h2, ih]

theorem ingest_fold_programs (batch : List (Program × String)) (tt : TypeTree) :
    (batch.foldl (fun t pf => add_program_with_path t pf.1 pf.2) tt).programs =
      tt.programs ++ batch.map (fun pf =>
        ProgramInfo.mk pf.1 (some pf.2) (some (pkgNameOf pf.1))) := by
  induction batch generalizing tt with
  | nil => simp
  | cons p rest ih =>
      rw [List.foldl_cons, ih]
      simp [add_program_with_path]

theorem ingest_fold_import_graph_not_mem (batch : List (Program × String))
    (tt : TypeTree) (f : String) (hf : ∀ pf ∈ batch, pf.2 ≠ f) :
    alLookup (batch.foldl (fun t pf => add_program_with_path t pf.1 pf.2)
      tt).import_graph f = alLookup tt.import_graph f := by
  induction batch generalizing tt with
  | nil => rfl
  | cons p rest ih =>
      rw [List.foldl_cons,
        ih _ (fun pf hpf => hf pf (List.mem_cons_of_mem _ hpf))]
      exact alLookup_alInsert_ne _ (hf p (List.mem_cons_self _ _)) _

theorem ingest_fold_import_graph_mem (batch : List (Program × String))
    (hnodup : (batch.map Prod.snd).Nodup) (prog : Program) (f : String)
    (hmem : (prog, f) ∈ batch) (tt : TypeTree) :
    alLookup (batch.foldl (fun t pf => add_program_with_path t pf.1 pf.2)
      tt).import_graph f =
      some (prog.imports.map (fun imp => resolve_import_path f imp.path)) := by
  induction batch generalizing tt with
  | nil => cases hmem
  | cons p rest ih =>
      rw [List.map_cons, List.nodup_cons] at hnodup
      rcases List.mem_cons.mp hmem with heq | hmem'
      · subst heq
        rw [List.foldl_cons,
          ingest_fold_import_graph_not_mem rest _ f
            (fun pf hpf hpff => hnodup.1
              (show f ∈ List.map Prod.snd rest from
                hpff ▸ List.mem_map_of_mem Prod.snd hpf))]
        exact alLookup_alInsert_self _ _ _
      · exact ih hnodup.2 hmem' _

theorem findSome?_isSome_of_mem {α β : Type} {g : α → Option β} :
    ∀ {l : List α} {a : α}, a ∈ l → (g a).isSome → (l.findSome? g).isSome := by
  intro l
  induction l with
  | nil => intro a ha _; cases ha
  | cons x xs ih =>
      intro a ha hg
      rw [List.findSome?_cons]
      cases hx : g x with
      | some b => rfl
      | none =>
          rcases List.mem_cons.mp ha with rfl | ha'
          · rw [hx] at hg; cases hg
          · exact ih ha' hg

theorem mem_of_findSome?_eq_some {α β : Type} {g : α → Option β} :
    ∀ {l : List α} {b : β}, l.findSome? g = some b → ∃ a ∈ l, g a = some b := by
  intro l
  induction l with
  | nil => intro b h; cases h
  | cons x xs ih =>
      intro b h
      rw [List.findSome?_cons] at h
      cases hx : g x with
      | some c =>
          rw [hx] at h
          exact ⟨x, List.mem_cons_self _ _, hx.trans h⟩
      | none =>
          rw [hx] at h
          obtain ⟨a, ha, hg⟩ := ih h
          exact ⟨a, List.mem_cons_of_mem _ ha, hg⟩

theorem findSome?_eq_none_of_forall {α β : Type} {g : α → Option β} :
    ∀ {l : List α}, (∀ a ∈ l, g a = none) → l.findSome? g = none := by
  intro l
  induction l with
  | nil => intro _; rfl
  | cons x xs ih =>
      intro h
      rw [List.findSome?_cons, h x (List.mem_cons_self _ _)]
      exact ih (fun a ha => h a (List.mem_cons_of_mem _ ha))

theorem find_original_import_ingestAll (batch : List (Program × String))
    (hnodup : (batch.map Prod.snd).Nodup) (prog : Program) (f : String)
    (hmem : (prog, f) ∈ batch) (r : String) :
    find_original_import (ingestAll batch) f r =
      prog.imports.findSome? (fun imp =>
        if resolve_import_path f imp.path = r then some imp.path else none) := by
  have hprogs : (ingestAll batch).programs = batch.map (fun pf =>
      ProgramInfo.mk pf.1 (some pf.2) (some (pkgNameOf pf.1))) := by
    rw [ingestAll, ingest_fold_programs]
    rfl
  rw [find_original_import, hprogs]
  clear hprogs
  induction batch with
  | nil => cases hmem
  | cons p rest ih =>
      rw [List.map_cons, List.nodup_cons] at hnodup
      rcases List.mem_cons.mp hmem with heq | hmem'
      · subst heq
        rw [List.map_cons, List.findSome?_cons]
        dsimp only
        rw [if_pos (show some (prog, f).2 = some f from rfl)]
        cases hinner : prog.imports.findSome? (fun imp =>
            if resolve_import_path f imp.path = r then some imp.path else none) with
        | some b => rfl
        | none =>
            refine findSome?_eq_none_of_forall ?_
            intro a ha
            obtain ⟨pf, hpf, rfl⟩ := List.mem_map.mp ha
            dsimp only
            rw [if_neg]
            intro hc
            exact hnodup.1 (show f ∈ List.map Prod.snd rest from
              Option.some.inj hc ▸ List.mem_map_of_mem Prod.snd hpf)
      · have hne : ¬ (p.2 = f) := fun hc =>
          hnodup.1 (show p.2 ∈ List.map Prod.snd rest from
            hc.symm ▸ (show f ∈ List.map Prod.snd rest from
              List.mem_map_of_mem Prod.snd hmem'))
        rw [List.map_cons, List.findSome?_cons]
        dsimp only
        rw [if_neg (fun hc => hne (Option.some.inj hc))]
        exact ih hnodup.2 hmem'

/-- C7: in a batch of programs with distinct file paths and no import
cycle, every import statement whose resolved path is not a registered file
makes `validate_imports` fail, and the reported `FileNotFound` cites as
`import_path` an original, pre-resolution import string of the importing
program — one whose replay through `resolve_import_path` yields the
resolved path — with the importing file and the resolved path alongside. -/
theorem validate_imports_file_not_found_original
    (σ : List String → List String) (hσ : ∀ l, (σ l).Perm l)
    (batch : List (Program × String)) (hnodup : (batch.map Prod.snd).Nodup)
    (prog : Program) (f : String) (hmem : (prog, f) ∈ batch)
    (s : ImportStmt) (hs : s ∈ prog.imports)
    (hmiss : alLookup (ingestAll batch).file_to_package
        (resolve_import_path f s.path) = none)
    (hnocycle : detect_circular_imports σ (ingestAll batch) = none) :
    ∃ errs orig,
      validate_imports σ (ingestAll batch) = .error errs ∧
      ImportValidationError.FileNotFound orig f (resolve_import_path f s.path) ∈ errs ∧
      ∃ imp ∈ prog.imports, imp.path = orig ∧
        resolve_import_path f imp.path = resolve_import_path f s.path := by
  have hG : alLookup (ingestAll batch).import_graph f =
      some (prog.imports.map (fun imp => resolve_import_path f imp.path)) :=
    ingest_fold_import_graph_mem batch hnodup prog f hmem TypeTree.new
  have hsome : (prog.imports.findSome? (fun imp =>
      if resolve_import_path f imp.path = resolve_import_path f s.path
      then some imp.path else none)).isSome :=
    findSome?_isSome_of_mem hs (by rw [if_pos rfl]; rfl)
  obtain ⟨orig, horig⟩ := Option.isSome_iff_exists.mp hsome
  have hfind : find_original_import (ingestAll batch) f
      (resolve_import_path f s.path) = some orig := by
    rw [find_original_import_ingestAll batch hnodup prog f hmem, horig]
  obtain ⟨imp, himp, hgimp⟩ := mem_of_findSome?_eq_some horig
  have himp2 : imp.path = orig ∧
      resolve_import_path f imp.path = resolve_import_path f s.path := by
    by_cases hc : resolve_import_path f imp.path = resolve_import_path f s.path
    · rw [if_pos hc] at hgimp
      exact ⟨Option.some.inj hgimp, hc⟩
    · rw [if_neg hc] at hgimp
      cases hgimp
  have hmem_err : ImportValidationError.FileNotFound orig f
      (resolve_import_path f s.path) ∈ missingImportErrors σ (ingestAll batch) := by
    refine List.mem_flatMap.mpr ⟨f, ?_, ?_⟩
    · exact ((hσ _).mem_iff).mpr
        (alLookup_isSome_mem_keys (by rw [hG]; rfl))
    · rw [hG]
      refine List.mem_filterMap.mpr
        ⟨resolve_import_path f s.path, List.mem_map.mpr ⟨s, hs, rfl⟩, ?_⟩
      rw [hmiss]
      rw [if_neg (by simp)]
      rw [hfind]
      rfl
  refine ⟨missingImportErrors σ (ingestAll batch), orig, ?_, hmem_err,
    imp, himp, himp2.1, himp2.2⟩
  unfold validate_imports
  rw [hnocycle]
  dsimp only
  rw [if_neg (List.ne_nil_of_mem hmem_err)]

/-- Fixture: a single program at `dir/main.glass` importing
`./missing.glass`, which is never supplied to the batch. -/
def c7Prog : Program :=
  ⟨some ⟨⟨["m"]⟩⟩, [⟨"./missing.glass"⟩], []⟩

/-- The one-program batch for the C7 witness. -/
def c7Batch : List (Program × String) := [(c7Prog, "dir/main.glass")]

/-- Witness for C7: the missing import resolves to `dir/./missing.glass`,
and the reported error cites the literal string `./missing.glass`. -/
theorem validate_imports_file_not_found_original_witness :
    ∃ errs orig,
      validate_imports (fun l => l) (ingestAll c7Batch) = .error errs ∧
      ImportValidationError.FileNotFound orig "dir/main.glass"
        (resolve_import_path "dir/main.glass" "./missing.glass") ∈ errs ∧
      ∃ imp ∈ c7Prog.imports, imp.path = orig ∧
        resolve_import_path "dir/main.glass" imp.path =
          resolve_import_path "dir/main.glass" "./missing.glass" :=
  validate_imports_file_not_found_original (fun l => l)
    (fun l => List.Perm.refl l) c7Batch (by simp [c7Batch])
    c7Prog "dir/main.glass" (by simp [c7Batch])
    ⟨"./missing.glass"⟩ (by simp [c7Prog]) (by rfl) (by rfl)
